import Mathlib

/-! function-tee: sanitising the request document and composing the desired
entries.

A shallow embedding of `src/fn.go`.

* A request document (`mReq`, a Go `map[string]interface{}` obtained by
  unmarshalling JSON) is a `Value` tree; Go maps are association lists that
  are read by first match, written in place and appended to when the key is
  new.
* The calls into crossplane-runtime's `fieldpath` package (`GetValueInto`,
  `SetValue`, `DeleteField`) are embedded as pure functions that return the
  updated tree; only the three dotted paths used by `fn.go` occur, all of
  which consist of field segments.
* A JSON marshal followed by an unmarshal is the identity on `Value` trees
  (numbers are carried as opaque integers), except for the typing it enforces
  when the target is `map[string]map[string]interface{}`.
* Errors are identified by the message `fn.go` wraps them with.
-/

namespace FunctionTee

/-! ## Documents -/

/-- A JSON-like document value, as held in a Go `interface{}` after
`json.Unmarshal`. -/
inductive Value where
  | null : Value
  | bool (b : Bool) : Value
  | num (n : Int) : Value
  | str (s : String) : Value
  | arr (xs : List Value) : Value
  | obj (kvs : List (String × Value)) : Value

/-- A Go `map[string]interface{}`. -/
abbrev Obj := List (String × Value)

/-- Go map read `m[k]` with the comma-ok flag: the first binding of `k`. -/
def mapGet {α : Type} (k : String) : List (String × α) → Option α
  | [] => none
  | (k', v) :: rest => if k' = k then some v else mapGet k rest

/-- Go map write `m[k] = v`: overwrite the binding of `k`, or add one. -/
def mapSet {α : Type} (k : String) (v : α) : List (String × α) → List (String × α)
  | [] => [(k, v)]
  | (k', v') :: rest => if k' = k then (k, v) :: rest else (k', v') :: mapSet k v rest

/-- Go builtin `delete(m, k)`: no binding of `k` remains. -/
def mapDelete {α : Type} (k : String) : List (String × α) → List (String × α)
  | [] => []
  | (k', v') :: rest => if k' = k then mapDelete k rest else (k', v') :: mapDelete k rest

/-! ## The reserved names (`fn.go`, lines 22-25) -/

def composedNameProviderConfig : String := "function-tee-provider-kubernetes-config"

def composedNameOutputConfigMap : String := "function-tee-output-configmap"

/-! ## The field-path accessor used by `fn.go` -/

/-- A segment of a field path: a map key or a sequence index. -/
inductive Segment where
  | field (name : String) : Segment
  | index (i : Nat) : Segment

/-- The two kinds of accessor failure: `fieldpath.IsNotFound` holds of the
first only. -/
inductive FieldErr where
  | notFound : FieldErr
  | other : FieldErr

/-- One iteration of the loop of `getValueFromInterface`: an index needs an
array and a field needs a map; a missing element, a missing key and a field
of nil are not-found, every other mismatch is a plain error. -/
def getSegment (it : Value) : Segment → Except FieldErr Value
  | .index i =>
    match it with
    | .arr array =>
      match array.get? i with
      | none => .error .notFound
      | some v => .ok v
    | _ => .error .other
  | .field f =>
    match it with
    | .obj object =>
      match mapGet f object with
      | none => .error .notFound
      | some v => .ok v
    | .null => .error .notFound
    | _ => .error .other

/-- The walk of `fieldpath`'s `getValueFromInterface` along the segments: the
value reached after the final segment is returned. (The empty path, which no
caller passes, is given the value itself.) -/
def getValueFromInterface : Value → List Segment → Except FieldErr Value
  | it, [] => .ok it
  | it, s :: rest =>
    match getSegment it s with
    | .error e => .error e
    | .ok v => getValueFromInterface v rest

/-- `Paved.GetValue` on a paved map, for a path of field names. -/
def getValue (object : Obj) (path : List String) : Except FieldErr Value :=
  getValueFromInterface (.obj object) (path.map Segment.field)

/-- An entry of `ors`, a Go `map[string]interface{}` that may be nil. -/
abbrev Entry := Option Obj

/-- What `json.Unmarshal` stores for one element of a
`map[string]map[string]interface{}`: JSON null leaves a nil map, an object is
taken as is, anything else is a type error. -/
def unmarshalEntry : Value → Except FieldErr Entry
  | .null => .ok none
  | .obj o => .ok (some o)
  | _ => .error .other

/-- The elements of the target map, key by key. -/
def unmarshalEntries : Obj → Except FieldErr (List (String × Entry))
  | [] => .ok []
  | (k, v) :: rest =>
    match unmarshalEntry v with
    | .error e => .error e
    | .ok e =>
      match unmarshalEntries rest with
      | .error e' => .error e'
      | .ok es => .ok ((k, e) :: es)

/-- The marshal/unmarshal step of `GetValueInto` with a nil
`map[string]map[string]interface{}` as target: JSON null leaves the target
nil (`none`), an object fills it, anything else is a type error. -/
def unmarshalOrs : Value → Except FieldErr (Option (List (String × Entry)))
  | .null => .ok none
  | .obj o =>
    match unmarshalEntries o with
    | .error e => .error e
    | .ok es => .ok (some es)
  | _ => .error .other

/-- `Paved.GetValueInto(path, &ors)`: the error of `GetValue` is returned
unchanged, a failed unmarshal is a plain error. -/
def getValueInto (object : Obj) (path : List String) :
    Except FieldErr (Option (List (String × Entry))) :=
  match getValue object path with
  | .error e => .error e
  | .ok val => unmarshalOrs val

/-- The helper `deleteField` of `fieldpath` for a field segment: the holder
must be a map, from which the key is deleted. -/
def deleteField (obj : Value) (s : String) : Except FieldErr Value :=
  match obj with
  | .obj object => .ok (.obj (mapDelete s object))
  | _ => .error .other

/-- The loop of `Paved.delete` from the segment `cur` on, where `nxt :: rest`
are the segments after it: `inv` must be a map; a missing key ends the walk
without change; at the segment before the last one the last key is deleted
from the child; the (in place mutated) child stays bound to `cur`. -/
def deleteLoop : Value → String → String → List String → Except FieldErr Value
  | inv, cur, nxt, rest =>
    match inv with
    | .obj object =>
      match mapGet cur object with
      | none => .ok inv
      | some child =>
        match rest with
        | [] =>
          match deleteField child nxt with
          | .error e => .error e
          | .ok o => .ok (.obj (mapSet cur o object))
        | nn :: rest' =>
          match deleteLoop child nxt nn rest' with
          | .error e => .error e
          | .ok c => .ok (.obj (mapSet cur c object))
    | _ => .error .other

/-- `Paved.DeleteField` on a paved map that may be nil. A nil map passes the
type test and has no key, so nothing happens. -/
def pavedDeleteField (p : Entry) (path : List String) : Except FieldErr Entry :=
  match p with
  | none => .ok none
  | some object =>
    match path with
    | [] => .ok (some object)
    | [s] => .ok (some (mapDelete s object))
    | cur :: nxt :: rest =>
      match deleteLoop (.obj object) cur nxt rest with
      | .error e => .error e
      | .ok (.obj o) => .ok (some o)
      | .ok _ => .error .other

/-- What `prepareField` of `fieldpath` does for a field followed by a field:
an absent key is bound to a new empty map. -/
def prepareField (object : Obj) (cur : String) : Obj :=
  match mapGet cur object with
  | none => mapSet cur (.obj []) object
  | some _ => object

/-- The loop of `Paved.setValue` from the segment `cur` on, `rest` being the
segments after it: `inv` must be a map; the final segment is assigned, any
other one is prepared and entered. -/
def setValueLoop : Value → String → List String → Value → Except FieldErr Value
  | inv, cur, rest, v =>
    match inv with
    | .obj object =>
      match rest with
      | [] => .ok (.obj (mapSet cur v object))
      | nxt :: rest' =>
        match mapGet cur (prepareField object cur) with
        | none => .error .other
        | some child =>
          match setValueLoop child nxt rest' v with
          | .error e => .error e
          | .ok c => .ok (.obj (mapSet cur c (prepareField object cur)))
    | _ => .error .other

/-- `Paved.SetValue` for a non-empty path of field names and a value that is
already valid JSON. -/
def setValue (object : Obj) (path : List String) (v : Value) : Except FieldErr Obj :=
  match path with
  | [] => .ok object
  | cur :: rest =>
    match setValueLoop (.obj object) cur rest v with
    | .error e => .error e
    | .ok (.obj o) => .ok o
    | .ok _ => .error .other

/-- The helper `toValidJSON` applied to one element of `ors`: a nil map
marshals to JSON null. -/
def entryToJSON : Entry → Value
  | none => .null
  | some o => .obj o

/-- The helper `toValidJSON` applied to `ors`: a nil map marshals to JSON
null, any other map to the object of its elements. -/
def orsToJSON : Option (List (String × Entry)) → Value
  | none => .null
  | some es => .obj (es.map fun kv => (kv.1, entryToJSON kv.2))

/-! ## `extractRequestAsYaml` (`fn.go`, lines 92-136) -/

def pathObservedResources : List String := ["observed", "resources"]

def pathManagedFields : List String := ["resource", "metadata", "managedFields"]

def pathCompositeManagedFields : List String :=
  ["observed", "composite", "resource", "metadata", "managedFields"]

def errGetObserved : String := "cannot get observed resources from request"

def errDeleteObserved : String := "cannot delete managedFields from observed resources"

def errSetObserved : String := "cannot set observed resources in request"

def errDeleteComposite : String :=
  "cannot delete managedFields from observed composite resource"

def errMarshalYaml : String := "cannot marshal map to yaml"

/-- The test of line 112. -/
def isReserved (k : String) : Bool :=
  k == composedNameOutputConfigMap || k == composedNameProviderConfig

/-- The loop of lines 111-121 over the elements of `ors`, taken in list
order. For a reserved key the element is deleted, after which `ors[k]` reads
as a nil map; `DeleteField` runs on `ors[k]` in either case and any error
other than not-found is returned, wrapped. -/
def cleanObserved : List (String × Entry) → Except String (List (String × Entry))
  | [] => .ok []
  | (k, e) :: rest =>
    let target : Entry := if isReserved k then none else e
    match pavedDeleteField target pathManagedFields with
    | .error .other => .error errDeleteObserved
    | .error .notFound =>
      match cleanObserved rest with
      | .error m => .error m
      | .ok es => .ok (if isReserved k then es else (k, e) :: es)
    | .ok e' =>
      match cleanObserved rest with
      | .error m => .error m
      | .ok es => .ok (if isReserved k then es else (k, e') :: es)

/-- The loop of lines 111-121 on `ors`: a nil map has nothing to range over. -/
def cleanOrs : Option (List (String × Entry)) →
    Except String (Option (List (String × Entry)))
  | none => .ok none
  | some es =>
    match cleanObserved es with
    | .error m => .error m
    | .ok es' => .ok (some es')

/-- The sanitising part of `extractRequestAsYaml` (lines 105-128) on the
request document `mReq`: read `observed.resources` into `ors` (not-found is
ignored), clean `ors`, write it back, delete the managed fields of the
observed composite resource (not-found is ignored). -/
def sanitize (mReq : Obj) : Except String Obj :=
  match (match getValueInto mReq pathObservedResources with
         | .error .other => Except.error errGetObserved
         | .error .notFound => Except.ok none
         | .ok ors => Except.ok ors) with
  | .error m => .error m
  | .ok ors =>
    match cleanOrs ors with
    | .error m => .error m
    | .ok ors' =>
      match setValue mReq pathObservedResources (orsToJSON ors') with
      | .error _ => .error errSetObserved
      | .ok m1 =>
        match pavedDeleteField (some m1) pathCompositeManagedFields with
        | .error .other => .error errDeleteComposite
        | .error .notFound => .ok m1
        | .ok none => .ok m1
        | .ok (some m2) => .ok m2

/-- The function `extractRequestAsYaml` from the unmarshalled request
document on (lines 105-135), with `yaml.Marshal` as a parameter: the text and
the error it returns, the text being empty whenever there is an error. -/
def extractRequestAsYaml (marshal : Obj → Option String) (mReq : Obj) :
    String × Option String :=
  match sanitize mReq with
  | .error m => ("", some m)
  | .ok doc =>
    match marshal doc with
    | none => ("", some errMarshalYaml)
    | some yReq => (yReq, none)

/-! ## `addDesiredTo` (`fn.go`, lines 138-196) -/

/-- The readiness values of `resource.Ready`. -/
inductive Ready where
  | ReadyUnspecified : Ready
  | ReadyTrue : Ready
  | ReadyFalse : Ready

/-- A desired composed resource: the object of its unstructured resource and
its readiness. -/
structure DesiredComposed where
  Resource : Obj
  Ready : Ready

/-- The value written under `composedNameProviderConfig` (lines 140-163). -/
def desiredProviderConfig : DesiredComposed :=
  { Resource :=
      [("apiVersion", .str "kubernetes.crossplane.io/v1alpha1"),
       ("kind", .str "ProviderConfig"),
       ("metadata", .obj [("name", .str "function-tee")]),
       ("spec", .obj [("credentials", .obj [("source", .str "InjectedIdentity")])])],
    Ready := .ReadyTrue }

/-- The value written under `composedNameOutputConfigMap` (lines 165-195). -/
def desiredOutputConfigMap (name ns requestYaml : String) : DesiredComposed :=
  { Resource :=
      [("apiVersion", .str "kubernetes.crossplane.io/v1alpha1"),
       ("kind", .str "Object"),
       ("spec", .obj
         [("providerConfigRef", .obj [("name", .str "function-tee")]),
          ("forProvider", .obj
            [("manifest", .obj
              [("apiVersion", .str "v1"),
               ("kind", .str "ConfigMap"),
               ("metadata", .obj [("name", .str name), ("namespace", .str ns)]),
               ("data", .obj [("request", .str requestYaml)])])])])],
    Ready := .ReadyTrue }

/-- The function `addDesiredTo`: two map writes into `existing`, the updated
map being returned. -/
def addDesiredTo (existing : List (String × DesiredComposed))
    (name ns requestYaml : String) : List (String × DesiredComposed) :=
  mapSet composedNameOutputConfigMap (desiredOutputConfigMap name ns requestYaml)
    (mapSet composedNameProviderConfig desiredProviderConfig existing)

/-! ## `RunFunction` (`fn.go`, lines 35-90)

The request and the response are protocol buffer messages and the helpers of
the function SDK that read and write them are not part of `fn.go`. A request
is embedded as what `RunFunction` obtains from it through those helpers; the
helpers that compute (`yaml.Marshal`, `strings.ToLower`,
`response.SetDesiredComposedResources`) are parameters. -/

/-- The input of the function (`v1beta1.Input`), of which `RunFunction` reads
the field `ConfigMapNamespace`; an unset field is the empty string. -/
structure Input where
  ConfigMapNamespace : String

/-- The severity of a result of the response. -/
inductive Severity where
  | Fatal : Severity
  | Normal : Severity

/-- A request, as `RunFunction` sees it: the desired state it carries (of an
opaque type `σ`), and the outcomes of `request.GetInput`, of the conversion
of the request to a document (lines 94-103), of
`request.GetObservedCompositeResource` (the object of the composite resource)
and of `request.GetDesiredComposedResources`. -/
structure RunFunctionRequest (σ : Type) where
  Desired : σ
  input : Except String Input
  document : Except String Obj
  observedComposite : Except String Obj
  desiredComposed : Except String (List (String × DesiredComposed))

/-- A response: the desired state and the results. -/
structure RunFunctionResponse (σ : Type) where
  Desired : σ
  Results : List (Severity × String)

/-- `response.To`: the new response carries the desired state of the
request and no result. -/
def responseTo {σ : Type} (req : RunFunctionRequest σ) : RunFunctionResponse σ :=
  { Desired := req.Desired, Results := [] }

/-- `response.Fatal`: a fatal result is added. -/
def responseFatal {σ : Type} (rsp : RunFunctionResponse σ) (msg : String) :
    RunFunctionResponse σ :=
  { rsp with Results := rsp.Results ++ [(Severity.Fatal, msg)] }

/-- `response.Normal`: a normal result is added. -/
def responseNormal {σ : Type} (rsp : RunFunctionResponse σ) (msg : String) :
    RunFunctionResponse σ :=
  { rsp with Results := rsp.Results ++ [(Severity.Normal, msg)] }

/-- `errors.Wrapf`: the message of the wrapped error. -/
def wrapf (inner msg : String) : String :=
  msg ++ ": " ++ inner

/-- The helper `getNestedString` behind `GetKind` and `GetName` of an
unstructured object: the string at the path, or the empty string when there
is none. -/
def getNestedString (obj : Obj) (path : List String) : String :=
  match getValue obj path with
  | .ok (.str s) => s
  | _ => ""

/-- `Unstructured.GetKind`. -/
def GetKind (obj : Obj) : String :=
  getNestedString obj ["kind"]

/-- `Unstructured.GetName`. -/
def GetName (obj : Obj) : String :=
  getNestedString obj ["metadata", "name"]

/-- The function `extractRequestAsYaml` on a request (lines 92-136): a failed
conversion to a document returns its error and no text. -/
def extractRequest (marshal : Obj → Option String) (document : Except String Obj) :
    String × Option String :=
  match document with
  | .error m => ("", some m)
  | .ok mReq => extractRequestAsYaml marshal mReq

/-- The default of line 56 and its override of lines 57-59. -/
def configMapNamespace (inp : Input) : String :=
  if inp.ConfigMapNamespace ≠ "" then inp.ConfigMapNamespace else "crossplane-system"

/-- Lines 49-79 of `RunFunction`: the message of the first step that fails,
or the map `desired` after the call of `addDesiredTo`. -/
def composeDesired (marshal : Obj → Option String) (toLower : String → String) {σ : Type}
    (req : RunFunctionRequest σ) : Except String (List (String × DesiredComposed)) :=
  match req.input with
  | .error e =>
    .error (wrapf e "cannot get Function input from *v1beta1.RunFunctionRequest")
  | .ok inp =>
    let cmNs := configMapNamespace inp
    match extractRequest marshal req.document with
    | (_, some e) => .error (wrapf e "cannot extract request as yaml")
    | (yReq, none) =>
      match req.observedComposite with
      | .error e =>
        .error (wrapf e
          "cannot get observed composed resources from *v1beta1.RunFunctionRequest")
      | .ok xr =>
        match req.desiredComposed with
        | .error e =>
          .error (wrapf e
            "cannot get desired composite resources from *v1beta1.RunFunctionRequest")
        | .ok desired =>
          .ok (addDesiredTo desired (toLower (GetKind xr ++ "." ++ GetName xr)) cmNs yReq)

/-- The function `RunFunction`: a failure of lines 49-79 makes the response
to the request fatal; otherwise `desired` is set in the response
(`setDesired` returns the desired state it leaves and its error, if any) and
the response is made fatal or normal. -/
def RunFunction (marshal : Obj → Option String) (toLower : String → String) {σ : Type}
    (setDesired : σ → List (String × DesiredComposed) → σ × Option String)
    (req : RunFunctionRequest σ) : RunFunctionResponse σ :=
  let rsp := responseTo req
  match composeDesired marshal toLower req with
  | .error msg => responseFatal rsp msg
  | .ok desired =>
    match setDesired rsp.Desired desired with
    | (d, some e) =>
      responseFatal { rsp with Desired := d }
        (wrapf e "cannot set desired composed resources in *v1beta1.RunFunctionResponse")
    | (d, none) => responseNormal { rsp with Desired := d } "Successful run"

/-! ## The serialiser -/

mutual
/-- Modelled from the spec: the canonicalisation of the Serializer
(`yaml.Marshal` of `sigs.k8s.io/yaml`, whose code is not under `src/`), which
"performs key-sorting": the keys of every map of the document are put in
increasing order. -/
def sortKeys : Value → Value
  | .arr xs => .arr (sortKeysList xs)
  | .obj kvs => .obj (List.insertionSort (fun a b => a.1 ≤ b.1) (sortKeysEntries kvs))
  | v => v
/-- Modelled from the spec: `sortKeys` on the elements of a sequence. -/
def sortKeysList : List Value → List Value
  | [] => []
  | x :: xs => sortKeys x :: sortKeysList xs
/-- Modelled from the spec: `sortKeys` on the values of a map. -/
def sortKeysEntries : List (String × Value) → List (String × Value)
  | [] => []
  | (k, v) :: rest => (k, sortKeys v) :: sortKeysEntries rest
end

/-- Modelled from the spec: the Serializer `render(doc) -> text`
(`yaml.Marshal`, whose code is not under `src/`): the document is
canonicalised by sorting keys and the result is written out by `emit`, the
writer of text for a document whose maps are ordered. -/
def marshalYaml (emit : Value → Option String) (doc : Obj) : Option String :=
  emit (sortKeys (.obj doc))

/-! ## Vocabulary of the statements -/

/-- Go builtin `len(m)`: the number of keys bound in the map. -/
def mapLen {α : Type} (m : List (String × α)) : Nat :=
  (m.map Prod.fst).toFinset.card

/-- The segments of a dotted path of field names. -/
def fields (path : List String) : List Segment :=
  path.map Segment.field

/-- The relation between a value `v` and the value `v'` left by deleting the
field at `path`: reading at or below `path` in `v'` is not-found; every other
read gives the same result in both, except that an ancestor of `path` that is
a map in `v` is a map in `v'` too (with the field gone). -/
def DeletedAt (path : List Segment) (v v' : Value) : Prop :=
  ∀ p : List Segment,
    (path <+: p → getValueFromInterface v' p = .error .notFound) ∧
    (¬ path <+: p →
      getValueFromInterface v' p = getValueFromInterface v p ∨
      (p <+: path ∧ ∃ o o', getValueFromInterface v p = .ok (.obj o) ∧
        getValueFromInterface v' p = .ok (.obj o')))

/-- Whether a value is a map (a Go `map[string]interface{}`). -/
def Value.isMap : Value → Bool
  | .obj _ => true
  | _ => false

/-- The document `base` with its `observed` replaced by the map `obs` in which
`resources` is bound to the map `res`: the documents that differ from one
another in `observed.resources` only. -/
def withObservedResources (base obs res : Obj) : Obj :=
  mapSet "observed" (.obj (mapSet "resources" (.obj res) obs)) base

/-- Lines 108-121 on a document whose `observed.resources` is the map `res`:
the typed read of `res`, whose failure is wrapped as at line 109, followed by
the cleaning loop. -/
def cleanedEntries (res : Obj) : Except String (List (String × Entry)) :=
  match unmarshalEntries res with
  | .error _ => .error errGetObserved
  | .ok es => cleanObserved es

/-- Structural equality of documents: the same scalars, sequences of the same
length with structurally equal elements, and maps (each key bound once) that
bind the same keys to structurally equal values, in whatever order the
bindings are held. -/
inductive StructEq : Value → Value → Prop where
  | null : StructEq .null .null
  | bool (b : Bool) : StructEq (.bool b) (.bool b)
  | num (n : Int) : StructEq (.num n) (.num n)
  | str (s : String) : StructEq (.str s) (.str s)
  | arr {xs ys : List Value} : xs.length = ys.length →
      (∀ (i : Nat) (h₁ : i < xs.length) (h₂ : i < ys.length),
        StructEq (xs.get ⟨i, h₁⟩) (ys.get ⟨i, h₂⟩)) →
      StructEq (.arr xs) (.arr ys)
  | obj {a b : List (String × Value)} : (a.map Prod.fst).Nodup → (b.map Prod.fst).Nodup →
      (∀ k, mapGet k a = none ↔ mapGet k b = none) →
      (∀ k v w, mapGet k a = some v → mapGet k b = some w → StructEq v w) →
      StructEq (.obj a) (.obj b)

/-! ## The end-to-end example of the specification -/

/-- The observed resources of the example request: the function's own output
config map and a resource `db`, both carrying managed fields. -/
def exampleResources : Obj :=
  [("function-tee-output-configmap",
      .obj [("resource", .obj [("metadata", .obj [("managedFields", .arr [.str "x"])])])]),
   ("db",
      .obj [("resource", .obj [("metadata",
        .obj [("managedFields", .arr [.str "y"]), ("name", .str "db")])])])]

/-- The entry `db` of the example request. -/
def exampleEntry : Value :=
  .obj [("resource", .obj [("metadata",
    .obj [("managedFields", .arr [.str "y"]), ("name", .str "db")])])]

/-- The example request document. -/
def exampleRequest : Obj :=
  [("observed", .obj [("resources", .obj exampleResources)])]

/-- The example request document, sanitised. -/
def exampleSanitized : Obj :=
  [("observed", .obj [("resources",
    .obj [("db", .obj [("resource", .obj [("metadata", .obj [("name", .str "db")])])])])])]

/-- A request document whose observed composite resource carries managed
fields, and which has no observed resources. -/
def exampleComposite : Obj :=
  [("observed", .obj [("composite", .obj [("resource", .obj [("metadata",
    .obj [("managedFields", .arr [.str "z"]), ("name", .str "sample")])])])])]

/-- The document `exampleComposite`, sanitised. -/
def exampleCompositeSanitized : Obj :=
  [("observed", .obj
    [("composite", .obj [("resource", .obj [("metadata", .obj [("name", .str "sample")])])]),
     ("resources", .null)])]

/-- The observed resources of `exampleNonMap`: the entry `db` holds a number
at `resource.metadata`. -/
def exampleNonMapResources : Obj :=
  [("db", .obj [("resource", .obj [("metadata", .num 5)])])]

/-- A request document with a value that is not a map at `resource.metadata`
of an observed resource. -/
def exampleNonMap : Obj :=
  [("observed", .obj [("resources", .obj exampleNonMapResources)])]

/-- A request document with desired state (one desired resource stored under
a reserved name) next to the observed resources of `exampleRequest`. -/
def exampleFramed : Obj :=
  [("desired", .obj [("resources", .obj [("function-tee-output-configmap",
      .obj [("resource", .obj [("metadata", .obj [("managedFields", .arr [.str "d"])])])])])]),
   ("observed", .obj [("resources", .obj exampleResources)])]

/-- The document `exampleFramed`, sanitised. -/
def exampleFramedSanitized : Obj :=
  [("desired", .obj [("resources", .obj [("function-tee-output-configmap",
      .obj [("resource", .obj [("metadata", .obj [("managedFields", .arr [.str "d"])])])])])]),
   ("observed", .obj [("resources",
     .obj [("db", .obj [("resource", .obj [("metadata", .obj [("name", .str "db")])])])])])]

/-- The observed resources of `exampleRequest` with the function's own
entries changed: the output config map is gone and the provider config is
there, holding a number at `resource`. -/
def exampleResourcesOther : Obj :=
  [("function-tee-provider-kubernetes-config", .obj [("resource", .num 5)]),
   ("db",
      .obj [("resource", .obj [("metadata",
        .obj [("managedFields", .arr [.str "y"]), ("name", .str "db")])])])]

/-- A request whose observed composite resource is the `XDatabase` named
`Sample`, with a configured namespace, one desired resource `db` and the
document `exampleRequest`. -/
def exampleRun : RunFunctionRequest (List (String × DesiredComposed)) :=
  { Desired := [("db", desiredProviderConfig)],
    input := .ok { ConfigMapNamespace := "tee-system" },
    document := .ok exampleRequest,
    observedComposite :=
      .ok [("kind", .str "XDatabase"), ("metadata", .obj [("name", .str "Sample")])],
    desiredComposed := .ok [("db", desiredProviderConfig)] }

/-- The request `exampleRun` with a document on which `extractRequestAsYaml`
fails. -/
def exampleRunFailing : RunFunctionRequest (List (String × DesiredComposed)) :=
  { exampleRun with document := .ok exampleNonMap }

/-- A sanitised document, and the same document with its two top-level
bindings held in the other order. -/
def exampleOrdered : Obj :=
  [("observed", .obj [("resources", .null)]), ("tag", .str "t")]

/-- The document `exampleOrdered` with its bindings in the other order. -/
def exampleReordered : Obj :=
  [("tag", .str "t"), ("observed", .obj [("resources", .null)])]

/-- The observed resources of `exampleUntyped`: the entry `db` holds a number
at `resource`, and the entry `x` is a string. -/
def exampleUntypedResources : Obj :=
  [("db", .obj [("resource", .num 5)]), ("x", .str "s")]

/-- A request document with an observed resource that is not a map. -/
def exampleUntyped : Obj :=
  [("observed", .obj [("resources", .obj exampleUntypedResources)])]

/-! ## Go maps: reads after writes -/

theorem mapGet_mapSet_self {α : Type} (k : String) (v : α) (m : List (String × α)) :
    mapGet k (mapSet k v m) = some v := by
  induction m with
  | nil => simp [mapSet, mapGet]
  | cons kv rest ih =>
    obtain ⟨k', v'⟩ := kv
    by_cases h : k' = k
    · simp [mapSet, mapGet, h]
    · simp [mapSet, mapGet, h, ih]

theorem mapGet_mapSet_ne {α : Type} {k k' : String} (h : k' ≠ k) (v : α)
    (m : List (String × α)) : mapGet k' (mapSet k v m) = mapGet k' m := by
  induction m with
  | nil => simp [mapSet, mapGet, Ne.symm h]
  | cons kv rest ih =>
    obtain ⟨k₀, v₀⟩ := kv
    by_cases h₀ : k₀ = k
    · subst h₀
      simp [mapSet, mapGet, Ne.symm h]
    · by_cases h₁ : k₀ = k'
      · subst h₁
        simp [mapSet, mapGet, h₀]
      · simp [mapSet, mapGet, h₀, h₁, ih]

theorem mapSet_of_mapGet {α : Type} {k : String} {v : α} {m : List (String × α)}
    (h : mapGet k m = some v) : mapSet k v m = m := by
  induction m with
  | nil => simp [mapGet] at h
  | cons kv rest ih =>
    obtain ⟨k₀, v₀⟩ := kv
    by_cases h₀ : k₀ = k
    · subst h₀
      simp [mapGet] at h
      simp [mapSet, h]
    · simp [mapGet, h₀] at h
      simp [mapSet, h₀, ih h]

theorem mapGet_mapDelete_self {α : Type} (k : String) (m : List (String × α)) :
    mapGet k (mapDelete k m) = none := by
  induction m with
  | nil => simp [mapDelete, mapGet]
  | cons kv rest ih =>
    obtain ⟨k₀, v₀⟩ := kv
    by_cases h₀ : k₀ = k
    · simp [mapDelete, h₀, ih]
    · simp [mapDelete, mapGet, h₀, ih]

theorem mapGet_mapDelete_ne {α : Type} {k k' : String} (h : k' ≠ k)
    (m : List (String × α)) : mapGet k' (mapDelete k m) = mapGet k' m := by
  induction m with
  | nil => simp [mapDelete, mapGet]
  | cons kv rest ih =>
    obtain ⟨k₀, v₀⟩ := kv
    by_cases h₀ : k₀ = k
    · subst h₀
      simp [mapDelete, mapGet, Ne.symm h, ih]
    · by_cases h₁ : k₀ = k'
      · subst h₁
        simp [mapDelete, mapGet, h₀]
      · simp [mapDelete, mapGet, h₀, h₁, ih]

theorem mapDelete_of_mapGet_none {α : Type} {k : String} {m : List (String × α)}
    (h : mapGet k m = none) : mapDelete k m = m := by
  induction m with
  | nil => rfl
  | cons kv rest ih =>
    obtain ⟨k₀, v₀⟩ := kv
    by_cases h₀ : k₀ = k
    · simp [mapGet, h₀] at h
    · simp [mapGet, h₀] at h
      simp [mapDelete, h₀, ih h]

theorem reserved_names_ne : composedNameProviderConfig ≠ composedNameOutputConfigMap := by
  decide

/-! ## `addDesiredTo`: the claims -/

/-- C3: `addDesiredTo` has no effect on a key other than the two reserved
names: the key is bound after the call iff it was bound before, and to the
same entry. -/
theorem addDesiredTo_frame (existing : List (String × DesiredComposed))
    (name ns requestYaml k : String)
    (hp : k ≠ composedNameProviderConfig) (ho : k ≠ composedNameOutputConfigMap) :
    mapGet k (addDesiredTo existing name ns requestYaml) = mapGet k existing := by
  unfold addDesiredTo
  rw [mapGet_mapSet_ne ho, mapGet_mapSet_ne hp]

theorem addDesiredTo_frame_witness :
    mapGet "db" (addDesiredTo [("db", desiredProviderConfig)] "xdatabase.sample"
        "crossplane-system" "observed: {}") =
      mapGet "db" [("db", desiredProviderConfig)] :=
  addDesiredTo_frame [("db", desiredProviderConfig)] "xdatabase.sample"
    "crossplane-system" "observed: {}" "db" (by decide) (by decide)

/-- C4: after `addDesiredTo` the entry under
"function-tee-provider-kubernetes-config" is the fixed ProviderConfig named
"function-tee" with credentials source "InjectedIdentity" and readiness True,
and the entry under "function-tee-output-configmap" is the Object that refers
to provider config "function-tee" and wraps the ConfigMap manifest with
metadata `name`/`ns` and the single data field `request` holding
`requestYaml`, with readiness True; the manifest's data is exactly
`request: requestYaml` and `providerConfigRef.name` reads the same as the
first entry's `metadata.name`. -/
theorem addDesiredTo_entries (existing : List (String × DesiredComposed))
    (name ns requestYaml : String) :
    mapGet composedNameProviderConfig (addDesiredTo existing name ns requestYaml) =
        some { Resource :=
                 [("apiVersion", .str "kubernetes.crossplane.io/v1alpha1"),
                  ("kind", .str "ProviderConfig"),
                  ("metadata", .obj [("name", .str "function-tee")]),
                  ("spec", .obj [("credentials", .obj [("source", .str "InjectedIdentity")])])],
               Ready := Ready.ReadyTrue } ∧
      mapGet composedNameOutputConfigMap (addDesiredTo existing name ns requestYaml) =
        some { Resource :=
                 [("apiVersion", .str "kubernetes.crossplane.io/v1alpha1"),
                  ("kind", .str "Object"),
                  ("spec", .obj
                    [("providerConfigRef", .obj [("name", .str "function-tee")]),
                     ("forProvider", .obj
                       [("manifest", .obj
                         [("apiVersion", .str "v1"),
                          ("kind", .str "ConfigMap"),
                          ("metadata", .obj [("name", .str name), ("namespace", .str ns)]),
                          ("data", .obj [("request", .str requestYaml)])])])])],
               Ready := Ready.ReadyTrue } ∧
      (∀ out, mapGet composedNameOutputConfigMap
            (addDesiredTo existing name ns requestYaml) = some out →
          getValue out.Resource ["spec", "forProvider", "manifest", "data"] =
            .ok (.obj [("request", .str requestYaml)]) ∧
          ∀ pc, mapGet composedNameProviderConfig
              (addDesiredTo existing name ns requestYaml) = some pc →
            getValue out.Resource ["spec", "providerConfigRef", "name"] =
              getValue pc.Resource ["metadata", "name"]) := by
  have hp : mapGet composedNameProviderConfig (addDesiredTo existing name ns requestYaml) =
      some desiredProviderConfig := by
    unfold addDesiredTo
    rw [mapGet_mapSet_ne reserved_names_ne, mapGet_mapSet_self]
  have ho : mapGet composedNameOutputConfigMap (addDesiredTo existing name ns requestYaml) =
      some (desiredOutputConfigMap name ns requestYaml) := by
    unfold addDesiredTo
    rw [mapGet_mapSet_self]
  refine ⟨hp, ho, ?_⟩
  intro out hout
  rw [ho] at hout
  cases hout
  refine ⟨rfl, ?_⟩
  intro pc hpc
  rw [hp] at hpc
  cases hpc
  rfl

/-- C5: entries already stored under the two reserved names are replaced, not
merged: whatever two starting maps hold, with the same name, namespace and
requestYaml the entries under both reserved names are equal after
`addDesiredTo`. -/
theorem addDesiredTo_replaces (existing₁ existing₂ : List (String × DesiredComposed))
    (name ns requestYaml : String) :
    mapGet composedNameProviderConfig (addDesiredTo existing₁ name ns requestYaml) =
        mapGet composedNameProviderConfig (addDesiredTo existing₂ name ns requestYaml) ∧
      mapGet composedNameOutputConfigMap (addDesiredTo existing₁ name ns requestYaml) =
        mapGet composedNameOutputConfigMap (addDesiredTo existing₂ name ns requestYaml) := by
  unfold addDesiredTo
  constructor
  · rw [mapGet_mapSet_ne reserved_names_ne, mapGet_mapSet_self,
      mapGet_mapSet_ne reserved_names_ne, mapGet_mapSet_self]
  · rw [mapGet_mapSet_self, mapGet_mapSet_self]

/-- C6: `addDesiredTo` is idempotent: calling it twice with the same arguments
yields the map that one call yields. -/
theorem addDesiredTo_idempotent (existing : List (String × DesiredComposed))
    (name ns requestYaml : String) :
    addDesiredTo (addDesiredTo existing name ns requestYaml) name ns requestYaml =
      addDesiredTo existing name ns requestYaml := by
  have hp : mapGet composedNameProviderConfig (addDesiredTo existing name ns requestYaml) =
      some desiredProviderConfig := by
    unfold addDesiredTo
    rw [mapGet_mapSet_ne reserved_names_ne, mapGet_mapSet_self]
  have ho : mapGet composedNameOutputConfigMap (addDesiredTo existing name ns requestYaml) =
      some (desiredOutputConfigMap name ns requestYaml) := by
    unfold addDesiredTo
    rw [mapGet_mapSet_self]
  have hunfold : ∀ m : List (String × DesiredComposed),
      addDesiredTo m name ns requestYaml =
        mapSet composedNameOutputConfigMap (desiredOutputConfigMap name ns requestYaml)
          (mapSet composedNameProviderConfig desiredProviderConfig m) := fun _ => rfl
  rw [hunfold (addDesiredTo existing name ns requestYaml), mapSet_of_mapGet hp,
    mapSet_of_mapGet ho]

/-! ## Reading through the accessor -/

theorem getValueFromInterface_obj_field (o : Obj) (k : String) (p : List Segment) :
    getValueFromInterface (.obj o) (.field k :: p) =
      match mapGet k o with
      | none => .error .notFound
      | some v => getValueFromInterface v p := by
  simp only [getValueFromInterface, getSegment]
  cases mapGet k o <;> rfl

theorem getValueFromInterface_obj_index (o : Obj) (i : Nat) (p : List Segment) :
    getValueFromInterface (.obj o) (.index i :: p) = .error .other := by
  simp [getValueFromInterface, getSegment]

theorem getValueFromInterface_null_field (k : String) (p : List Segment) :
    getValueFromInterface .null (.field k :: p) = .error .notFound := by
  simp [getValueFromInterface, getSegment]

theorem getValueFromInterface_null_index (i : Nat) (p : List Segment) :
    getValueFromInterface .null (.index i :: p) = .error .other := by
  simp [getValueFromInterface, getSegment]

/-- A successful `deleteLoop` starts from a map and ends in a map. -/
theorem deleteLoop_obj {v v' : Value} {cur nxt : String} {rest : List String}
    (h : deleteLoop v cur nxt rest = .ok v') : ∃ o o', v = .obj o ∧ v' = .obj o' := by
  cases v with
  | obj object =>
    cases rest with
    | nil =>
      simp only [deleteLoop] at h
      split at h
      · cases h
        exact ⟨_, _, rfl, rfl⟩
      · split at h
        · cases h
        · cases h
          exact ⟨_, _, rfl, rfl⟩
    | cons nn rest' =>
      simp only [deleteLoop] at h
      split at h
      · cases h
        exact ⟨_, _, rfl, rfl⟩
      · split at h
        · cases h
        · cases h
          exact ⟨_, _, rfl, rfl⟩
  | null => simp [deleteLoop] at h
  | bool b => simp [deleteLoop] at h
  | num n => simp [deleteLoop] at h
  | str s => simp [deleteLoop] at h
  | arr xs => simp [deleteLoop] at h

/-! ## Deleting a field -/

theorem deletedAt_of_missing {object : Obj} {cur : String} (sub : List Segment)
    (h : mapGet cur object = none) :
    DeletedAt (.field cur :: sub) (.obj object) (.obj object) := by
  intro p
  refine ⟨?_, fun _ => Or.inl rfl⟩
  rintro ⟨t, rfl⟩
  simp [getValueFromInterface_obj_field, h]

theorem deletedAt_of_deleteField {child c' : Value} {nxt : String}
    (h : deleteField child nxt = .ok c') : DeletedAt [.field nxt] child c' := by
  cases child with
  | obj c =>
    simp only [deleteField, Except.ok.injEq] at h
    subst h
    intro p
    cases p with
    | nil =>
      refine ⟨by simp, fun _ => Or.inr ⟨List.nil_prefix, c, _, rfl, rfl⟩⟩
    | cons s p' =>
      cases s with
      | index i =>
        refine ⟨by simp, fun _ => Or.inl ?_⟩
        simp [getValueFromInterface_obj_index]
      | field k =>
        by_cases hk : k = nxt
        · subst hk
          refine ⟨fun _ => ?_, fun hn => absurd ?_ hn⟩
          · simp [getValueFromInterface_obj_field, mapGet_mapDelete_self]
          · exact ⟨p', rfl⟩
        · refine ⟨fun hpre => ?_, fun _ => Or.inl ?_⟩
          · simp [List.cons_prefix_cons, Ne.symm hk] at hpre
          · simp [getValueFromInterface_obj_field, mapGet_mapDelete_ne hk]
  | null => simp [deleteField] at h
  | bool b => simp [deleteField] at h
  | num n => simp [deleteField] at h
  | str s => simp [deleteField] at h
  | arr xs => simp [deleteField] at h

theorem deletedAt_lift {object : Obj} {cur : String} {sub : List Segment}
    {child c' : Value} (hc : mapGet cur object = some child)
    (h : DeletedAt sub child c') :
    DeletedAt (.field cur :: sub) (.obj object) (.obj (mapSet cur c' object)) := by
  intro p
  cases p with
  | nil =>
    refine ⟨by simp, fun _ => Or.inr ⟨List.nil_prefix, _, _, rfl, rfl⟩⟩
  | cons s p' =>
    cases s with
    | index i =>
      refine ⟨by simp [List.cons_prefix_cons], fun _ => Or.inl ?_⟩
      simp [getValueFromInterface_obj_index]
    | field k =>
      by_cases hk : k = cur
      · subst hk
        have hv' : getValueFromInterface (.obj (mapSet k c' object)) (.field k :: p') =
            getValueFromInterface c' p' := by
          simp [getValueFromInterface_obj_field, mapGet_mapSet_self]
        have hv : getValueFromInterface (.obj object) (.field k :: p') =
            getValueFromInterface child p' := by
          simp [getValueFromInterface_obj_field, hc]
        rw [hv', hv]
        obtain ⟨h₁, h₂⟩ := h p'
        refine ⟨fun hpre => h₁ ?_, fun hn => ?_⟩
        · simpa [List.cons_prefix_cons] using hpre
        · have hn' : ¬ sub <+: p' := by
            intro hpre
            exact hn (by simpa [List.cons_prefix_cons] using hpre)
          rcases h₂ hn' with heq | ⟨hpre, o, o', ho, ho'⟩
          · exact Or.inl heq
          · exact Or.inr ⟨by simpa [List.cons_prefix_cons] using hpre, o, o', ho, ho'⟩
      · refine ⟨fun hpre => ?_, fun _ => Or.inl ?_⟩
        · simp [List.cons_prefix_cons, Ne.symm hk] at hpre
        · simp [getValueFromInterface_obj_field, mapGet_mapSet_ne hk]

/-- What a successful `deleteLoop` leaves: the field at the path is gone and
nothing else has changed. -/
theorem deleteLoop_deletedAt (rest : List String) :
    ∀ (v v' : Value) (cur nxt : String), deleteLoop v cur nxt rest = .ok v' →
      DeletedAt (fields (cur :: nxt :: rest)) v v' := by
  induction rest with
  | nil =>
    intro v v' cur nxt h
    obtain ⟨object, o', rfl, rfl⟩ := deleteLoop_obj h
    simp only [deleteLoop] at h
    split at h
    · rename_i hc
      cases h
      exact deletedAt_of_missing _ hc
    · rename_i child hc
      split at h
      · cases h
      · rename_i o ho
        cases h
        exact deletedAt_lift hc (deletedAt_of_deleteField ho)
  | cons nn rest' ih =>
    intro v v' cur nxt h
    obtain ⟨object, o', rfl, rfl⟩ := deleteLoop_obj h
    simp only [deleteLoop] at h
    split at h
    · rename_i hc
      cases h
      exact deletedAt_of_missing _ hc
    · rename_i child hc
      split at h
      · cases h
      · rename_i c hcl
        cases h
        exact deletedAt_lift hc (ih _ _ _ _ hcl)

/-- The loop of `Paved.delete` never reports not-found. -/
theorem deleteLoop_error (rest : List String) :
    ∀ (v : Value) (cur nxt : String) (e : FieldErr),
      deleteLoop v cur nxt rest = .error e → e = .other := by
  induction rest with
  | nil =>
    intro v cur nxt e h
    cases v <;> simp only [deleteLoop] at h <;> try (cases h; rfl)
    split at h
    · cases h
    · rename_i child hc
      cases child <;> simp only [deleteField] at h <;> cases h <;> rfl
  | cons nn rest' ih =>
    intro v cur nxt e h
    cases v <;> simp only [deleteLoop] at h <;> try (cases h; rfl)
    split at h
    · cases h
    · split at h
      · rename_i e' he
        cases h
        exact ih _ _ _ _ he
      · cases h

theorem pavedDeleteField_error {p : Entry} {cur nxt : String} {rest : List String}
    {e : FieldErr} (h : pavedDeleteField p (cur :: nxt :: rest) = .error e) :
    e = .other := by
  cases p with
  | none => simp [pavedDeleteField] at h
  | some object =>
    simp only [pavedDeleteField] at h
    split at h
    · rename_i e' he
      cases h
      exact deleteLoop_error _ _ _ _ _ he
    · cases h
    · cases h
      rfl

theorem pavedDeleteField_some {object : Obj} {cur nxt : String} {rest : List String}
    {p' : Entry} (h : pavedDeleteField (some object) (cur :: nxt :: rest) = .ok p') :
    ∃ o', p' = some o' ∧ deleteLoop (.obj object) cur nxt rest = .ok (.obj o') := by
  simp only [pavedDeleteField] at h
  split at h
  · cases h
  · rename_i o ho
    cases h
    exact ⟨o, rfl, ho⟩
  · cases h

theorem pavedDeleteField_deletedAt {p p' : Entry} {cur nxt : String} {rest : List String}
    (h : pavedDeleteField p (cur :: nxt :: rest) = .ok p') :
    DeletedAt (fields (cur :: nxt :: rest)) (entryToJSON p) (entryToJSON p') := by
  cases p with
  | none =>
    simp only [pavedDeleteField, Except.ok.injEq] at h
    subst h
    intro q
    refine ⟨?_, fun _ => Or.inl rfl⟩
    rintro ⟨t, rfl⟩
    simp [fields, entryToJSON, getValueFromInterface_null_field]
  | some object =>
    obtain ⟨o', rfl, ho⟩ := pavedDeleteField_some h
    exact deleteLoop_deletedAt _ _ _ _ _ ho

/-! ## The typed copy of `observed.resources` -/

theorem mapGet_map {α β : Type} (f : α → β) (k : String) (m : List (String × α)) :
    mapGet k (m.map fun kv => (kv.1, f kv.2)) = (mapGet k m).map f := by
  induction m with
  | nil => rfl
  | cons kv rest ih =>
    obtain ⟨k₀, v₀⟩ := kv
    by_cases h₀ : k₀ = k
    · simp [mapGet, h₀]
    · simp [mapGet, h₀, ih]

theorem unmarshalEntry_ok {v : Value} {e : Entry} (h : unmarshalEntry v = .ok e) :
    entryToJSON e = v := by
  cases v <;> simp only [unmarshalEntry] at h <;> cases h <;> rfl

theorem unmarshalEntries_get {res : Obj} {es : List (String × Entry)}
    (h : unmarshalEntries res = .ok es) (k : String) :
    (mapGet k es).map entryToJSON = mapGet k res := by
  induction res generalizing es with
  | nil =>
    simp only [unmarshalEntries, Except.ok.injEq] at h
    subst h
    rfl
  | cons kv rest ih =>
    obtain ⟨k₀, v₀⟩ := kv
    simp only [unmarshalEntries] at h
    split at h
    · cases h
    · rename_i e he
      split at h
      · cases h
      · rename_i es' hes
        cases h
        by_cases h₀ : k₀ = k
        · simp [mapGet, h₀, unmarshalEntry_ok he]
        · simp [mapGet, h₀, ih hes]

/-- What the cleaning loop leaves under each key: nothing under a reserved
name, and under any other key the element with its managed fields deleted. -/
theorem cleanObserved_get {es es' : List (String × Entry)}
    (h : cleanObserved es = .ok es') (k : String) :
    (isReserved k = true → mapGet k es' = none) ∧
    (isReserved k = false →
      (mapGet k es = none → mapGet k es' = none) ∧
      (∀ e, mapGet k es = some e →
        ∃ e', pavedDeleteField e pathManagedFields = .ok e' ∧ mapGet k es' = some e')) := by
  induction es generalizing es' with
  | nil =>
    simp only [cleanObserved, Except.ok.injEq] at h
    subst h
    simp [mapGet]
  | cons kv rest ih =>
    obtain ⟨k₀, e₀⟩ := kv
    simp only [cleanObserved] at h
    split at h
    · cases h
    · rename_i hnf
      exact absurd (pavedDeleteField_error hnf) (by simp)
    · rename_i e₁ he₁
      split at h
      · cases h
      · rename_i es₁ hes₁
        cases h
        obtain ⟨ih₁, ih₂⟩ := ih hes₁
        by_cases hr : isReserved k₀ = true
        · simp only [hr, if_true]
          refine ⟨ih₁, fun hk => ?_⟩
          have hne : k₀ ≠ k := by
            rintro rfl
            simp [hr] at hk
          simpa [mapGet, hne] using ih₂ hk
        · simp only [hr, if_false] at he₁ ⊢
          by_cases h₀ : k₀ = k
          · subst h₀
            refine ⟨fun hk => absurd hk hr, fun _ => ?_⟩
            simp only [mapGet, if_true]
            refine ⟨by simp, ?_⟩
            intro e he
            cases he
            exact ⟨e₁, he₁, rfl⟩
          · simpa [mapGet, h₀] using And.intro ih₁ ih₂

/-! ## Writing `observed.resources` back -/

theorem mapGet_prepareField_ne {k cur : String} (h : k ≠ cur) (object : Obj) :
    mapGet k (prepareField object cur) = mapGet k object := by
  unfold prepareField
  split
  · exact mapGet_mapSet_ne h _ _
  · rfl

/-- The map that holds `observed.resources` once `SetValue` has prepared the
path: the `observed` map of the document, or a new empty map when the
document has no `observed` key. -/
theorem setValue_two {doc m₁ : Obj} {a b : String} {v : Value}
    (h : setValue doc [a, b] v = .ok m₁) :
    ∃ obs, (mapGet a doc = some (.obj obs) ∨ (mapGet a doc = none ∧ obs = [])) ∧
      mapGet a m₁ = some (.obj (mapSet b v obs)) ∧
      ∀ k, k ≠ a → mapGet k m₁ = mapGet k doc := by
  simp only [setValue, setValueLoop] at h
  have hprep : ∃ child, mapGet a (prepareField doc a) = some child ∧
      (mapGet a doc = some child ∨ (mapGet a doc = none ∧ child = .obj [])) := by
    unfold prepareField
    cases hd : mapGet a doc with
    | none => exact ⟨.obj [], by simp [mapGet_mapSet_self], Or.inr ⟨rfl, rfl⟩⟩
    | some c => exact ⟨c, by simp [hd], Or.inl rfl⟩
  obtain ⟨child, hchild, hsrc⟩ := hprep
  rw [hchild] at h
  cases child with
  | obj obs =>
    simp only [setValueLoop, Except.ok.injEq] at h
    subst h
    refine ⟨obs, ?_, mapGet_mapSet_self _ _ _, fun k hk => ?_⟩
    · rcases hsrc with h₁ | ⟨h₁, h₂⟩
      · exact Or.inl h₁
      · refine Or.inr ⟨h₁, ?_⟩
        cases h₂
        rfl
    · rw [mapGet_mapSet_ne hk, mapGet_prepareField_ne hk]
  | null => simp [setValueLoop] at h
  | bool b => simp [setValueLoop] at h
  | num n => simp [setValueLoop] at h
  | str s => simp [setValueLoop] at h
  | arr xs => simp [setValueLoop] at h

/-- The steps of a successful `sanitize`: the typed copy `ors` of
`observed.resources` (nil when there is no value to read), its cleaned form,
the document with the copy written back, and the final delete. -/
theorem sanitize_ok {doc out : Obj} (h : sanitize doc = .ok out) :
    ∃ ors ors' m₁,
      (getValueInto doc pathObservedResources = .ok ors ∨
        (getValueInto doc pathObservedResources = .error .notFound ∧ ors = none)) ∧
      cleanOrs ors = .ok ors' ∧
      setValue doc pathObservedResources (orsToJSON ors') = .ok m₁ ∧
      deleteLoop (.obj m₁) "observed" "composite" ["resource", "metadata", "managedFields"] =
        .ok (.obj out) := by
  unfold sanitize at h
  split at h
  · cases h
  · rename_i ors hread
    split at h
    · cases h
    · rename_i ors' hclean
      split at h
      · cases h
      · rename_i m₁ hset
        have hread' : getValueInto doc pathObservedResources = .ok ors ∨
            (getValueInto doc pathObservedResources = .error .notFound ∧ ors = none) := by
          split at hread
          · cases hread
          · cases hread
            exact Or.inr ⟨by assumption, rfl⟩
          · cases hread
            exact Or.inl (by assumption)
        refine ⟨ors, ors', m₁, hread', hclean, hset, ?_⟩
        split at h
        · cases h
        · rename_i hnf
          exact absurd (pavedDeleteField_error hnf) (by simp)
        · rename_i hnone
          obtain ⟨o', ho', _⟩ := pavedDeleteField_some hnone
          cases ho'
        · rename_i m₂ hm₂
          cases h
          obtain ⟨o', ho', hdel⟩ := pavedDeleteField_some hm₂
          cases ho'
          exact hdel

/-! ## Reading the sanitised document -/

theorem getValueFromInterface_single (o : Obj) (k : String) (v : Value) :
    getValueFromInterface (.obj o) [.field k] = .ok v ↔ mapGet k o = some v := by
  rw [getValueFromInterface_obj_field]
  cases mapGet k o <;> simp [getValueFromInterface]

theorem unmarshalEntries_error {res : Obj} {e : FieldErr}
    (h : unmarshalEntries res = .error e) : e = .other := by
  induction res with
  | nil => simp [unmarshalEntries] at h
  | cons kv rest ih =>
    obtain ⟨k₀, v₀⟩ := kv
    simp only [unmarshalEntries] at h
    split at h
    · rename_i e' he'
      cases h
      cases v₀ <;> simp only [unmarshalEntry] at he' <;> cases he' <;> rfl
    · split at h
      · rename_i e' he'
        cases h
        exact ih he'
      · cases h

/-- Below `observed.resources` the sanitised document reads as the cleaned
copy `ors'` that was written back. -/
theorem sanitize_read_resources {doc out : Obj} (h : sanitize doc = .ok out) :
    ∃ ors ors',
      (getValueInto doc pathObservedResources = .ok ors ∨
        (getValueInto doc pathObservedResources = .error .notFound ∧ ors = none)) ∧
      cleanOrs ors = .ok ors' ∧
      ∀ q, getValueFromInterface (.obj out) (.field "observed" :: .field "resources" :: q) =
        getValueFromInterface (orsToJSON ors') q := by
  obtain ⟨ors, ors', m₁, hread, hclean, hset, hdel⟩ := sanitize_ok h
  refine ⟨ors, ors', hread, hclean, fun q => ?_⟩
  obtain ⟨obs, -, hobs, -⟩ := setValue_two hset
  have hm₁ : getValueFromInterface (.obj m₁) (.field "observed" :: .field "resources" :: q) =
      getValueFromInterface (orsToJSON ors') q := by
    simp [getValueFromInterface_obj_field, hobs, mapGet_mapSet_self]
  have hd := (deleteLoop_deletedAt _ _ _ _ _ hdel
    (.field "observed" :: .field "resources" :: q)).2
  have hnp : ¬ fields ["observed", "composite", "resource", "metadata", "managedFields"] <+:
      (.field "observed" :: .field "resources" :: q) := by
    simp [fields, List.cons_prefix_cons]
  rcases hd hnp with heq | ⟨hpre, -⟩
  · rw [heq, hm₁]
  · simp [fields, List.cons_prefix_cons] at hpre

/-- When `observed.resources` is a map, the typed copy holds its elements and
the sanitised document holds the cleaned elements. -/
theorem sanitize_resources_map {doc out res : Obj}
    (hres : getValue doc pathObservedResources = .ok (.obj res))
    (h : sanitize doc = .ok out) :
    ∃ es es', unmarshalEntries res = .ok es ∧ cleanObserved es = .ok es' ∧
      getValue out pathObservedResources =
        .ok (.obj (es'.map fun kv => (kv.1, entryToJSON kv.2))) := by
  obtain ⟨ors, ors', hread, hclean, hq⟩ := sanitize_read_resources h
  have hinto : getValueInto doc pathObservedResources = unmarshalOrs (.obj res) := by
    simp [getValueInto, hres]
  cases hes : unmarshalEntries res with
  | error e =>
    have he := unmarshalEntries_error hes
    subst he
    simp [hinto, unmarshalOrs, hes] at hread
  | ok es =>
    have hors : ors = some es := by
      simp [hinto, unmarshalOrs, hes] at hread
      exact hread.symm
    subst hors
    simp only [cleanOrs] at hclean
    split at hclean
    · cases hclean
    · rename_i es' hes'
      cases hclean
      refine ⟨es, es', rfl, hes', ?_⟩
      have := hq []
      simpa [getValue, pathObservedResources, orsToJSON, getValueFromInterface] using this

theorem isReserved_eq_false_iff (k : String) :
    isReserved k = false ↔
      k ≠ composedNameProviderConfig ∧ k ≠ composedNameOutputConfigMap := by
  simp [isReserved, and_comm]

/-! ## The sanitiser: observed resources -/

/-- C1: when `observed.resources` of the request document is a map and the
sanitising part of `extractRequestAsYaml` succeeds, `observed.resources` of
the sanitised document is a map whose keys are exactly the keys of the input
map other than the two reserved names. -/
theorem sanitize_resource_keys (doc out res : Obj)
    (hres : getValue doc pathObservedResources = .ok (.obj res))
    (h : sanitize doc = .ok out) :
    ∃ res', getValue out pathObservedResources = .ok (.obj res') ∧
      ∀ k, (∃ v', mapGet k res' = some v') ↔
        ((∃ v, mapGet k res = some v) ∧
          k ≠ composedNameProviderConfig ∧ k ≠ composedNameOutputConfigMap) := by
  obtain ⟨es, es', hes, hes', hout⟩ := sanitize_resources_map hres h
  refine ⟨_, hout, fun k => ?_⟩
  rw [mapGet_map]
  have hin := unmarshalEntries_get hes k
  obtain ⟨hr₁, hr₂⟩ := cleanObserved_get hes' k
  rw [← isReserved_eq_false_iff]
  cases hr : isReserved k with
  | true => simp [hr₁ hr]
  | false =>
    obtain ⟨hnone, hsome⟩ := hr₂ hr
    cases hk : mapGet k es with
    | none =>
      rw [hk] at hin
      simp [hnone hk, ← hin]
    | some e =>
      obtain ⟨e', -, he'⟩ := hsome e hk
      rw [hk] at hin
      simp [he', ← hin]

theorem sanitize_resource_keys_witness :
    getValue exampleRequest pathObservedResources = .ok (.obj exampleResources) ∧
    sanitize exampleRequest = .ok exampleSanitized ∧
    ∃ res', getValue exampleSanitized pathObservedResources = .ok (.obj res') ∧
      ∀ k, (∃ v', mapGet k res' = some v') ↔
        ((∃ v, mapGet k exampleResources = some v) ∧
          k ≠ composedNameProviderConfig ∧ k ≠ composedNameOutputConfigMap) :=
  ⟨rfl, rfl, sanitize_resource_keys exampleRequest exampleSanitized exampleResources rfl rfl⟩

/-- C2: when the sanitising part of `extractRequestAsYaml` succeeds, the entry
kept under a key `k` of `observed.resources` that is not a reserved name is
the input entry without `resource.metadata.managedFields`: that path has no
value in it, and every path that does not pass through it reads the same as
in the input entry, an ancestor of the path (the entry, `resource`,
`resource.metadata`) that is a map staying a map. -/
theorem sanitize_resource_entry (doc out res : Obj) (k : String) (v : Value)
    (hres : getValue doc pathObservedResources = .ok (.obj res))
    (h : sanitize doc = .ok out)
    (hp : k ≠ composedNameProviderConfig) (ho : k ≠ composedNameOutputConfigMap)
    (hk : mapGet k res = some v) :
    ∃ res' v', getValue out pathObservedResources = .ok (.obj res') ∧
      mapGet k res' = some v' ∧
      getValueFromInterface v' (fields pathManagedFields) = .error .notFound ∧
      ∀ p : List Segment, ¬ fields pathManagedFields <+: p →
        getValueFromInterface v' p = getValueFromInterface v p ∨
        (p <+: fields pathManagedFields ∧
          ∃ o o', getValueFromInterface v p = .ok (.obj o) ∧
            getValueFromInterface v' p = .ok (.obj o')) := by
  obtain ⟨es, es', hes, hes', hout⟩ := sanitize_resources_map hres h
  have hin := unmarshalEntries_get hes k
  have hr : isReserved k = false := (isReserved_eq_false_iff k).2 ⟨hp, ho⟩
  obtain ⟨-, hsome⟩ := (cleanObserved_get hes' k).2 hr
  cases hke : mapGet k es with
  | none => simp [hke, hk] at hin
  | some e =>
    obtain ⟨e', hdel, he'⟩ := hsome e hke
    have hv : entryToJSON e = v := by
      rw [hke, hk] at hin
      simpa using hin
    subst hv
    have hd := pavedDeleteField_deletedAt hdel
    refine ⟨_, entryToJSON e', hout, ?_, (hd _).1 (List.prefix_refl _), fun p hn => (hd p).2 hn⟩
    rw [mapGet_map, he']
    rfl

theorem sanitize_resource_entry_witness :
    getValue exampleRequest pathObservedResources = .ok (.obj exampleResources) ∧
    sanitize exampleRequest = .ok exampleSanitized ∧
    mapGet "db" exampleResources = some exampleEntry ∧
    ∃ res' v', getValue exampleSanitized pathObservedResources = .ok (.obj res') ∧
      mapGet "db" res' = some v' ∧
      getValueFromInterface v' (fields pathManagedFields) = .error .notFound ∧
      ∀ p : List Segment, ¬ fields pathManagedFields <+: p →
        getValueFromInterface v' p = getValueFromInterface exampleEntry p ∨
        (p <+: fields pathManagedFields ∧
          ∃ o o', getValueFromInterface exampleEntry p = .ok (.obj o) ∧
            getValueFromInterface v' p = .ok (.obj o')) :=
  ⟨rfl, rfl, rfl,
    sanitize_resource_entry exampleRequest exampleSanitized exampleResources "db"
      exampleEntry rfl rfl (by decide) (by decide) rfl⟩

/-! ## The sanitiser: the observed composite resource -/

/-- Deleting below a map that lacks the next key of the path changes nothing
and does not fail. -/
theorem deleteLoop_of_missing (rest : List String) :
    ∀ (v : Value) (cur nxt : String) (pre : List String) (k : String) (post : List String)
      (o : Obj), cur :: nxt :: rest = pre ++ k :: post →
      getValueFromInterface v (fields pre) = .ok (.obj o) → mapGet k o = none →
      deleteLoop v cur nxt rest = .ok v := by
  induction rest with
  | nil =>
    intro v cur nxt pre k post o hsplit hget hk
    cases pre with
    | nil =>
      simp only [List.nil_append, List.cons.injEq] at hsplit
      obtain ⟨rfl, -⟩ := hsplit
      simp only [fields, List.map_nil, getValueFromInterface, Except.ok.injEq] at hget
      subst hget
      simp [deleteLoop, hk]
    | cons a pre' =>
      simp only [List.cons_append, List.cons.injEq] at hsplit
      obtain ⟨rfl, hsplit⟩ := hsplit
      cases pre' with
      | nil =>
        simp only [List.nil_append, List.cons.injEq] at hsplit
        obtain ⟨rfl, -⟩ := hsplit
        cases v with
        | obj object =>
          simp only [fields, List.map_cons, List.map_nil,
            getValueFromInterface_single] at hget
          simp [deleteLoop, hget, deleteField, mapDelete_of_mapGet_none hk,
            mapSet_of_mapGet hget]
        | null => simp [fields, getValueFromInterface, getSegment] at hget
        | bool b => simp [fields, getValueFromInterface, getSegment] at hget
        | num n => simp [fields, getValueFromInterface, getSegment] at hget
        | str s => simp [fields, getValueFromInterface, getSegment] at hget
        | arr xs => simp [fields, getValueFromInterface, getSegment] at hget
      | cons b pre'' =>
        simp at hsplit
  | cons nn rest' ih =>
    intro v cur nxt pre k post o hsplit hget hk
    cases pre with
    | nil =>
      simp only [List.nil_append, List.cons.injEq] at hsplit
      obtain ⟨rfl, -⟩ := hsplit
      simp only [fields, List.map_nil, getValueFromInterface, Except.ok.injEq] at hget
      subst hget
      simp [deleteLoop, hk]
    | cons a pre' =>
      simp only [List.cons_append, List.cons.injEq] at hsplit
      obtain ⟨rfl, hsplit⟩ := hsplit
      cases v with
      | obj object =>
        simp only [fields, List.map_cons, getValueFromInterface_obj_field] at hget
        cases hc : mapGet cur object with
        | none => simp [hc] at hget
        | some child =>
          simp only [hc] at hget
          have hchild := ih child nxt nn pre' k post o hsplit hget hk
          simp [deleteLoop, hc, hchild, mapSet_of_mapGet hc]
      | null => simp [fields, getValueFromInterface, getSegment] at hget
      | bool b => simp [fields, getValueFromInterface, getSegment] at hget
      | num n => simp [fields, getValueFromInterface, getSegment] at hget
      | str s => simp [fields, getValueFromInterface, getSegment] at hget
      | arr xs => simp [fields, getValueFromInterface, getSegment] at hget

/-- Below `observed.composite` the document with `observed.resources` written
back reads as the input document. -/
theorem setValue_read_composite {doc m₁ : Obj} {v : Value}
    (h : setValue doc pathObservedResources v = .ok m₁) (p : List Segment) :
    getValueFromInterface (.obj m₁) (.field "observed" :: .field "composite" :: p) =
      getValueFromInterface (.obj doc) (.field "observed" :: .field "composite" :: p) := by
  obtain ⟨obs, hobs, hm₁, -⟩ := setValue_two h
  have hne : "composite" ≠ "resources" := by decide
  rcases hobs with hd | ⟨hd, rfl⟩
  · simp [getValueFromInterface_obj_field, hm₁, hd, mapGet_mapSet_ne hne]
  · simp [getValueFromInterface_obj_field, hm₁, hd, mapGet_mapSet_ne hne, mapGet]

theorem cleanObserved_error {es : List (String × Entry)} {m : String}
    (h : cleanObserved es = .error m) : m = errDeleteObserved := by
  induction es with
  | nil => simp [cleanObserved] at h
  | cons kv rest ih =>
    obtain ⟨k₀, e₀⟩ := kv
    simp only [cleanObserved] at h
    split at h
    · cases h
      rfl
    · split at h
      · rename_i m' hm'
        cases h
        exact ih hm'
      · cases h
    · split at h
      · rename_i m' hm'
        cases h
        exact ih hm'
      · cases h

theorem cleanOrs_error {ors : Option (List (String × Entry))} {m : String}
    (h : cleanOrs ors = .error m) : m = errDeleteObserved := by
  cases ors with
  | none => simp [cleanOrs] at h
  | some es =>
    simp only [cleanOrs] at h
    split at h
    · rename_i m' hm'
      cases h
      exact cleanObserved_error hm'
    · cases h

/-- The steps at which `sanitize` can fail, each with its message. -/
theorem sanitize_error {doc : Obj} {m : String} (h : sanitize doc = .error m) :
    (m = errGetObserved ∧ getValueInto doc pathObservedResources = .error .other) ∨
    (m = errDeleteObserved ∧ ∃ ors,
      (getValueInto doc pathObservedResources = .ok ors ∨
        (getValueInto doc pathObservedResources = .error .notFound ∧ ors = none)) ∧
      cleanOrs ors = .error errDeleteObserved) ∨
    (m = errSetObserved ∧ ∃ ors',
      setValue doc pathObservedResources (orsToJSON ors') = .error .other ∨
      setValue doc pathObservedResources (orsToJSON ors') = .error .notFound) ∨
    (m = errDeleteComposite ∧ ∃ ors' m₁,
      setValue doc pathObservedResources (orsToJSON ors') = .ok m₁ ∧
      deleteLoop (.obj m₁) "observed" "composite" ["resource", "metadata", "managedFields"] =
        .error .other) := by
  unfold sanitize at h
  split at h
  · rename_i m' hread
    cases h
    split at hread
    · cases hread
      exact Or.inl ⟨rfl, by assumption⟩
    · cases hread
    · cases hread
  · rename_i ors hread
    have hread' : getValueInto doc pathObservedResources = .ok ors ∨
        (getValueInto doc pathObservedResources = .error .notFound ∧ ors = none) := by
      split at hread
      · cases hread
      · cases hread
        exact Or.inr ⟨by assumption, rfl⟩
      · cases hread
        exact Or.inl (by assumption)
    split at h
    · rename_i m' hclean
      cases h
      have hm := cleanOrs_error hclean
      subst hm
      exact Or.inr (Or.inl ⟨rfl, ors, hread', hclean⟩)
    · rename_i ors' hclean
      split at h
      · rename_i e hset
        cases h
        refine Or.inr (Or.inr (Or.inl ⟨rfl, ors', ?_⟩))
        cases e
        · exact Or.inr hset
        · exact Or.inl hset
      · rename_i m₁ hset
        split at h
        · rename_i herr
          cases h
          refine Or.inr (Or.inr (Or.inr ⟨rfl, ors', m₁, hset, ?_⟩))
          simp only [pavedDeleteField, pathCompositeManagedFields] at herr
          split at herr
          · rename_i e he
            cases herr
            exact he
          · cases herr
          · rename_i v hnot hv
            obtain ⟨o, o', -, ho'⟩ := deleteLoop_obj hv
            exact absurd ho' (hnot o')
        · cases h
        · cases h
        · cases h

/-- A map on the way to `observed.composite.resource.metadata.managedFields`
that lacks the next key in the input document is still there, and still lacks
it, once `observed.resources` has been written back. -/
theorem setValue_keeps_missing {doc m₁ : Obj} {v : Value}
    (h : setValue doc pathObservedResources v = .ok m₁)
    {pre post : List String} {k : String} {o : Obj}
    (hsplit : pathCompositeManagedFields = pre ++ k :: post)
    (hget : getValue doc pre = .ok (.obj o)) (hk : mapGet k o = none) :
    ∃ (pre' : List String) (k' : String) (post' : List String) (o' : Obj),
      pathCompositeManagedFields = pre' ++ k' :: post' ∧
      getValueFromInterface (.obj m₁) (fields pre') = .ok (.obj o') ∧ mapGet k' o' = none := by
  obtain ⟨obs, hobs, hm₁, -⟩ := setValue_two h
  have hne : "composite" ≠ "resources" := by decide
  cases pre with
  | nil =>
    simp only [pathCompositeManagedFields, List.nil_append, List.cons.injEq] at hsplit
    obtain ⟨rfl, -⟩ := hsplit
    simp only [getValue, List.map_nil, getValueFromInterface, Except.ok.injEq,
      Value.obj.injEq] at hget
    subst hget
    rcases hobs with hd | ⟨-, rfl⟩
    · simp [pathObservedResources, hk] at hd
    · refine ⟨["observed"], "composite", ["resource", "metadata", "managedFields"],
        mapSet "resources" v [], rfl, ?_, ?_⟩
      · simp only [fields, List.map_cons, List.map_nil, getValueFromInterface_single]
        exact hm₁
      · simp [mapGet_mapSet_ne hne, mapGet]
  | cons a pre' =>
    simp only [pathCompositeManagedFields, List.cons_append, List.cons.injEq] at hsplit
    obtain ⟨rfl, hsplit⟩ := hsplit
    cases pre' with
    | nil =>
      simp only [List.nil_append, List.cons.injEq] at hsplit
      obtain ⟨rfl, -⟩ := hsplit
      simp only [getValue, List.map_cons, List.map_nil, getValueFromInterface_single] at hget
      rcases hobs with hd | ⟨hd, -⟩
      · rw [hget] at hd
        cases hd
        refine ⟨["observed"], "composite", ["resource", "metadata", "managedFields"],
          mapSet "resources" v o, rfl, ?_, ?_⟩
        · simp only [fields, List.map_cons, List.map_nil, getValueFromInterface_single]
          exact hm₁
        · rw [mapGet_mapSet_ne hne]
          exact hk
      · simp [pathObservedResources, hget] at hd
    | cons b pre'' =>
      simp only [List.cons_append, List.cons.injEq] at hsplit
      obtain ⟨rfl, hsplit⟩ := hsplit
      refine ⟨"observed" :: "composite" :: pre'', k, post, o, ?_, ?_, hk⟩
      · simp [pathCompositeManagedFields, hsplit]
      · simp only [fields, List.map_cons]
        rw [setValue_read_composite h]
        simpa [getValue] using hget

/-- C10: when the sanitising part of `extractRequestAsYaml` succeeds, the
sanitised document has no value at
`observed.composite.resource.metadata.managedFields`; every path below
`observed.composite` that does not pass through `resource.metadata.managedFields`
reads as in the input, an ancestor of that field that is a map staying a map;
and a document in which some map on the way to the field lacks the next key
never fails with the error of this step. -/
theorem sanitize_composite (doc out : Obj) (h : sanitize doc = .ok out) :
    getValue out pathCompositeManagedFields = .error .notFound ∧
    (∀ p : List Segment, ¬ fields pathManagedFields <+: p →
      getValueFromInterface (.obj out) (.field "observed" :: .field "composite" :: p) =
          getValueFromInterface (.obj doc) (.field "observed" :: .field "composite" :: p) ∨
        (p <+: fields pathManagedFields ∧
          ∃ o o',
            getValueFromInterface (.obj doc) (.field "observed" :: .field "composite" :: p) =
              .ok (.obj o) ∧
            getValueFromInterface (.obj out) (.field "observed" :: .field "composite" :: p) =
              .ok (.obj o'))) ∧
    (∀ (doc' : Obj) (pre : List String) (k : String) (post : List String) (o : Obj),
      pathCompositeManagedFields = pre ++ k :: post →
      getValue doc' pre = .ok (.obj o) → mapGet k o = none →
      sanitize doc' ≠ .error errDeleteComposite) := by
  obtain ⟨ors, ors', m₁, -, -, hset, hdel⟩ := sanitize_ok h
  have hd := deleteLoop_deletedAt _ _ _ _ _ hdel
  refine ⟨(hd _).1 (List.prefix_refl _), fun p hn => ?_, ?_⟩
  · have hn' : ¬ fields ["observed", "composite", "resource", "metadata", "managedFields"] <+:
        (.field "observed" :: .field "composite" :: p) := by
      intro hpre
      apply hn
      simpa [fields, pathManagedFields, List.cons_prefix_cons] using hpre
    rw [← setValue_read_composite hset p]
    rcases (hd _).2 hn' with heq | ⟨hpre, o, o', ho, ho'⟩
    · exact Or.inl heq
    · refine Or.inr ⟨?_, o, o', ho, ho'⟩
      simpa [fields, pathManagedFields, List.cons_prefix_cons] using hpre
  · intro doc' pre k post o hsplit hget hk herr
    rcases sanitize_error herr with ⟨hm, -⟩ | ⟨hm, -⟩ | ⟨hm, -⟩ | ⟨-, ors₁, m₂, hset', hdel'⟩
    · exact absurd hm (by decide)
    · exact absurd hm (by decide)
    · exact absurd hm (by decide)
    · obtain ⟨pre', k', post', o', hsplit', hget', hk'⟩ :=
        setValue_keeps_missing hset' hsplit hget hk
      have hok := deleteLoop_of_missing _ (.obj m₂) "observed" "composite" pre' k' post' o'
        hsplit' hget' hk'
      rw [hok] at hdel'
      cases hdel'

theorem sanitize_composite_witness :
    sanitize exampleComposite = .ok exampleCompositeSanitized ∧
    getValue exampleCompositeSanitized pathCompositeManagedFields = .error .notFound ∧
    (∀ p : List Segment, ¬ fields pathManagedFields <+: p →
      getValueFromInterface (.obj exampleCompositeSanitized)
          (.field "observed" :: .field "composite" :: p) =
          getValueFromInterface (.obj exampleComposite)
            (.field "observed" :: .field "composite" :: p) ∨
        (p <+: fields pathManagedFields ∧
          ∃ o o',
            getValueFromInterface (.obj exampleComposite)
                (.field "observed" :: .field "composite" :: p) = .ok (.obj o) ∧
            getValueFromInterface (.obj exampleCompositeSanitized)
                (.field "observed" :: .field "composite" :: p) = .ok (.obj o'))) ∧
    getValue exampleRequest ["observed"] = .ok (.obj [("resources", .obj exampleResources)]) ∧
    mapGet "composite" [("resources", Value.obj exampleResources)] = none ∧
    sanitize exampleRequest ≠ .error errDeleteComposite :=
  ⟨rfl, (sanitize_composite exampleComposite exampleCompositeSanitized rfl).1,
    (sanitize_composite exampleComposite exampleCompositeSanitized rfl).2.1, rfl, rfl,
    (sanitize_composite exampleComposite exampleCompositeSanitized rfl).2.2 exampleRequest
      ["observed"] "composite" ["resource", "metadata", "managedFields"]
      [("resources", .obj exampleResources)] rfl rfl rfl⟩

/-! ## The sanitiser: failures of the cleaning loop -/

/-- Deleting the managed fields of an entry fails exactly when `resource` or
`resource.metadata` holds a value that is not a map. -/
theorem pavedDeleteField_managedFields_error_iff (e : Obj) :
    pavedDeleteField (some e) pathManagedFields = .error .other ↔
      ∃ x, (getValue e ["resource"] = .ok x ∨ getValue e ["resource", "metadata"] = .ok x) ∧
        x.isMap = false := by
  simp only [getValue, List.map_cons, List.map_nil, getValueFromInterface_obj_field,
    pavedDeleteField, pathManagedFields, deleteLoop]
  cases hr : mapGet "resource" e with
  | none => simp
  | some child =>
    cases child with
    | obj r =>
      cases hm : mapGet "metadata" r with
      | none =>
        simp [getValueFromInterface, Value.isMap, getSegment, hm, deleteLoop]
      | some c =>
        cases c with
        | obj m =>
          simp only [getValueFromInterface, Value.isMap, getSegment, hm, deleteLoop,
            deleteField]
          constructor
          · intro h
            cases h
          · rintro ⟨x, hx | hx, hmap⟩
            · cases hx
              cases hmap
            · cases hx
              cases hmap
        | null =>
          simp only [getValueFromInterface, Value.isMap, getSegment, hm, deleteLoop,
            deleteField, true_iff]
          exact ⟨_, Or.inr rfl, rfl⟩
        | bool b =>
          simp only [getValueFromInterface, Value.isMap, getSegment, hm, deleteLoop,
            deleteField, true_iff]
          exact ⟨_, Or.inr rfl, rfl⟩
        | num n =>
          simp only [getValueFromInterface, Value.isMap, getSegment, hm, deleteLoop,
            deleteField, true_iff]
          exact ⟨_, Or.inr rfl, rfl⟩
        | str s =>
          simp only [getValueFromInterface, Value.isMap, getSegment, hm, deleteLoop,
            deleteField, true_iff]
          exact ⟨_, Or.inr rfl, rfl⟩
        | arr xs =>
          simp only [getValueFromInterface, Value.isMap, getSegment, hm, deleteLoop,
            deleteField, true_iff]
          exact ⟨_, Or.inr rfl, rfl⟩
    | null => simp [getValueFromInterface, Value.isMap, getSegment, deleteLoop]
    | bool b => simp [getValueFromInterface, Value.isMap, getSegment, deleteLoop]
    | num n => simp [getValueFromInterface, Value.isMap, getSegment, deleteLoop]
    | str s => simp [getValueFromInterface, Value.isMap, getSegment, deleteLoop]
    | arr xs => simp [getValueFromInterface, Value.isMap, getSegment, deleteLoop]

/-- The cleaning loop fails exactly when deleting the managed fields of some
element under a key that is not reserved fails. -/
theorem cleanObserved_error_iff (es : List (String × Entry)) :
    cleanObserved es = .error errDeleteObserved ↔
      ∃ k e, (k, e) ∈ es ∧ isReserved k = false ∧
        pavedDeleteField e pathManagedFields = .error .other := by
  induction es with
  | nil => simp [cleanObserved]
  | cons kv rest ih =>
    obtain ⟨k₀, e₀⟩ := kv
    cases hr : isReserved k₀ with
    | true =>
      have hnil : pavedDeleteField none pathManagedFields = .ok none := rfl
      simp only [cleanObserved, hr, if_true, hnil]
      constructor
      · intro h
        split at h
        · rename_i m hm
          cases h
          obtain ⟨k, e, hmem, hk, he⟩ := ih.1 hm
          exact ⟨k, e, List.mem_cons_of_mem _ hmem, hk, he⟩
        · cases h
      · rintro ⟨k, e, hmem, hk, he⟩
        rcases List.mem_cons.1 hmem with heq | hmem'
        · cases heq
          rw [hr] at hk
          cases hk
        · rw [ih.2 ⟨k, e, hmem', hk, he⟩]
    | false =>
      simp only [cleanObserved, hr, Bool.false_eq_true, if_false]
      cases hd : pavedDeleteField e₀ pathManagedFields with
      | error err =>
        have herr := pavedDeleteField_error hd
        subst herr
        simp only [true_iff]
        exact ⟨k₀, e₀, List.mem_cons_self _ _, hr, hd⟩
      | ok e₁ =>
        simp only
        constructor
        · intro h
          split at h
          · rename_i m hm
            cases h
            obtain ⟨k, e, hmem, hk, he⟩ := ih.1 hm
            exact ⟨k, e, List.mem_cons_of_mem _ hmem, hk, he⟩
          · cases h
        · rintro ⟨k, e, hmem, hk, he⟩
          rcases List.mem_cons.1 hmem with heq | hmem'
          · cases heq
            rw [hd] at he
            cases he
          · rw [ih.2 ⟨k, e, hmem', hk, he⟩]

theorem extractRequestAsYaml_error_iff (marshal : Obj → Option String) (doc : Obj) :
    extractRequestAsYaml marshal doc = ("", some errDeleteObserved) ↔
      sanitize doc = .error errDeleteObserved := by
  unfold extractRequestAsYaml
  cases hs : sanitize doc with
  | error m => simp
  | ok d =>
    cases hm : marshal d with
    | none =>
      have hne : errMarshalYaml ≠ errDeleteObserved := by decide
      simp [hm, hne]
    | some y => simp [hm]

/-- When `observed.resources` is read as the map of entries `es` (line 108),
`extractRequestAsYaml` returns the error of line 119 and the empty text
exactly when some entry of `es` under a key that is not reserved holds a
value that is not a map at `resource` or at `resource.metadata`. -/
theorem extractRequestAsYaml_delete_error_iff (marshal : Obj → Option String) (doc : Obj)
    (es : List (String × Entry))
    (hread : getValueInto doc pathObservedResources = .ok (some es)) :
    (∃ k e x, (k, some e) ∈ es ∧
        k ≠ composedNameProviderConfig ∧ k ≠ composedNameOutputConfigMap ∧
        (getValue e ["resource"] = .ok x ∨ getValue e ["resource", "metadata"] = .ok x) ∧
        x.isMap = false) ↔
      extractRequestAsYaml marshal doc = ("", some errDeleteObserved) := by
  have hsan : sanitize doc = .error errDeleteObserved ↔
      cleanObserved es = .error errDeleteObserved := by
    constructor
    · intro h
      rcases sanitize_error h with ⟨hm, -⟩ | ⟨-, ors, hors, hclean⟩ | ⟨hm, -⟩ | ⟨hm, -⟩
      · exact absurd hm (by decide)
      · have hors' : ors = some es := by
          rcases hors with hors | ⟨hors, -⟩
          · rw [hread] at hors
            cases hors
            rfl
          · rw [hread] at hors
            cases hors
        subst hors'
        simp only [cleanOrs] at hclean
        split at hclean
        · rename_i m hm
          rw [cleanObserved_error hm] at hm
          exact hm
        · cases hclean
      · exact absurd hm (by decide)
      · exact absurd hm (by decide)
    · intro h
      simp [sanitize, hread, cleanOrs, h]
  rw [extractRequestAsYaml_error_iff, hsan, cleanObserved_error_iff]
  constructor
  · rintro ⟨k, e, x, hk, hp, ho, hx, hmap⟩
    exact ⟨k, some e, hk, (isReserved_eq_false_iff k).2 ⟨hp, ho⟩,
      (pavedDeleteField_managedFields_error_iff e).2 ⟨x, hx, hmap⟩⟩
  · rintro ⟨k, e, hk, hr, hdel⟩
    cases e with
    | none => cases hdel
    | some o =>
      obtain ⟨x, hx, hmap⟩ := (pavedDeleteField_managedFields_error_iff o).1 hdel
      obtain ⟨hp, ho⟩ := (isReserved_eq_false_iff k).1 hr
      exact ⟨k, o, x, hk, hp, ho, hx, hmap⟩

/-- A map whose elements are maps or null unmarshals into the typed copy,
element by element. -/
theorem unmarshalEntries_of_typed {res : Obj}
    (h : ∀ kv ∈ res, kv.2 = .null ∨ kv.2.isMap = true) :
    ∃ es, unmarshalEntries res = .ok es ∧
      ∀ k e, (k, e) ∈ es ↔ (k, entryToJSON e) ∈ res := by
  induction res with
  | nil => exact ⟨[], rfl, by simp⟩
  | cons kv rest ih =>
    obtain ⟨k₀, v₀⟩ := kv
    obtain ⟨es, hes, hmem⟩ := ih fun kv hkv => h kv (List.mem_cons_of_mem _ hkv)
    have hv₀ : ∃ e₀, unmarshalEntry v₀ = .ok e₀ ∧ entryToJSON e₀ = v₀ := by
      rcases h (k₀, v₀) (List.mem_cons_self _ _) with hnull | hmap
      · simp only at hnull
        subst hnull
        exact ⟨none, rfl, rfl⟩
      · cases v₀ <;> simp only [Value.isMap] at hmap <;> try cases hmap
        rename_i o
        exact ⟨some o, rfl, rfl⟩
    obtain ⟨e₀, he₀, hjson⟩ := hv₀
    refine ⟨(k₀, e₀) :: es, by simp [unmarshalEntries, he₀, hes], fun k e => ?_⟩
    have hinj : ∀ e : Entry, entryToJSON e = v₀ → e = e₀ := by
      intro e he
      rw [← hjson] at he
      cases e <;> cases e₀ <;> simp only [entryToJSON] at he <;> first
        | rfl
        | (cases he; rfl)
        | cases he
    simp only [List.mem_cons, Prod.mk.injEq, hmem]
    constructor
    · rintro (⟨rfl, rfl⟩ | hrest)
      · exact Or.inl ⟨rfl, hjson⟩
      · exact Or.inr hrest
    · rintro (⟨rfl, hj⟩ | hrest)
      · exact Or.inl ⟨rfl, hinj e hj⟩
      · exact Or.inr hrest

/-- A map with an element that is neither a map nor null does not unmarshal
into the typed copy. -/
theorem unmarshalEntries_of_untyped {res : Obj}
    (h : ∃ kv ∈ res, kv.2 ≠ .null ∧ kv.2.isMap = false) :
    unmarshalEntries res = .error .other := by
  induction res with
  | nil =>
    obtain ⟨kv, hkv, -⟩ := h
    cases hkv
  | cons kv rest ih =>
    obtain ⟨k₀, v₀⟩ := kv
    simp only [unmarshalEntries]
    cases hv : unmarshalEntry v₀ with
    | error e =>
      cases v₀ <;> simp only [unmarshalEntry] at hv <;> cases hv <;> rfl
    | ok e₀ =>
      simp only
      have hrest : ∃ kv ∈ rest, kv.2 ≠ .null ∧ kv.2.isMap = false := by
        obtain ⟨kv, hkv, hnull, hmap⟩ := h
        rcases List.mem_cons.1 hkv with heq | hmem
        · subst heq
          simp only at hnull hmap
          cases v₀ with
          | null => exact absurd rfl hnull
          | obj o => simp [Value.isMap] at hmap
          | bool b => simp [unmarshalEntry] at hv
          | num n => simp [unmarshalEntry] at hv
          | str s => simp [unmarshalEntry] at hv
          | arr xs => simp [unmarshalEntry] at hv
        · exact ⟨kv, hmem, hnull, hmap⟩
      rw [ih hrest]

/-- C9, as the code has it: for a request document whose `observed.resources`
is the map `res`: when every entry of `res` is a map or null,
`extractRequestAsYaml` fails with "cannot delete managedFields from observed
resources", returning the empty text, exactly when some entry under a key
that is not reserved holds a value that is not a map at `resource` or at
`resource.metadata` (so a merely missing `resource`, `metadata` or
`managedFields` never causes that failure); and when some entry of `res` is
neither a map nor null, it fails with "cannot get observed resources from
request", returning the empty text. -/
theorem extractRequestAsYaml_non_map (marshal : Obj → Option String) (doc res : Obj)
    (hres : getValue doc pathObservedResources = .ok (.obj res)) :
    ((∀ kv ∈ res, kv.2 = .null ∨ kv.2.isMap = true) →
      ((∃ k e x, (k, Value.obj e) ∈ res ∧
          k ≠ composedNameProviderConfig ∧ k ≠ composedNameOutputConfigMap ∧
          (getValue e ["resource"] = .ok x ∨ getValue e ["resource", "metadata"] = .ok x) ∧
          x.isMap = false) ↔
        extractRequestAsYaml marshal doc = ("", some errDeleteObserved))) ∧
    ((∃ kv ∈ res, kv.2 ≠ .null ∧ kv.2.isMap = false) →
      extractRequestAsYaml marshal doc = ("", some errGetObserved)) := by
  constructor
  · intro htyped
    obtain ⟨es, hes, hmem⟩ := unmarshalEntries_of_typed htyped
    have hread : getValueInto doc pathObservedResources = .ok (some es) := by
      simp [getValueInto, hres, unmarshalOrs, hes]
    rw [← extractRequestAsYaml_delete_error_iff marshal doc es hread]
    constructor
    · rintro ⟨k, e, x, hk, hrest⟩
      exact ⟨k, e, x, (hmem k (some e)).2 hk, hrest⟩
    · rintro ⟨k, e, x, hk, hrest⟩
      exact ⟨k, e, x, (hmem k (some e)).1 hk, hrest⟩
  · intro huntyped
    have hes := unmarshalEntries_of_untyped huntyped
    have hsan : sanitize doc = .error errGetObserved := by
      simp [sanitize, getValueInto, hres, unmarshalOrs, hes]
    simp [extractRequestAsYaml, hsan]

theorem extractRequestAsYaml_non_map_witness :
    getValue exampleNonMap pathObservedResources = .ok (.obj exampleNonMapResources) ∧
    extractRequestAsYaml (fun _ => some "snapshot") exampleNonMap =
      ("", some errDeleteObserved) ∧
    getValue exampleUntyped pathObservedResources = .ok (.obj exampleUntypedResources) ∧
    extractRequestAsYaml (fun _ => some "snapshot") exampleUntyped =
      ("", some errGetObserved) :=
  ⟨rfl,
    ((extractRequestAsYaml_non_map (fun _ => some "snapshot") exampleNonMap
      exampleNonMapResources rfl).1
      (by
        intro kv hkv
        simp only [exampleNonMapResources, List.mem_singleton] at hkv
        subst hkv
        exact Or.inr rfl)).1
      ⟨"db", [("resource", .obj [("metadata", .num 5)])], .num 5,
        List.mem_singleton.2 rfl, by decide, by decide, Or.inr rfl, rfl⟩,
    rfl,
    (extractRequestAsYaml_non_map (fun _ => some "snapshot") exampleUntyped
      exampleUntypedResources rfl).2
      ⟨("x", .str "s"), List.mem_cons_of_mem _ (List.mem_singleton.2 rfl),
        by simp, rfl⟩⟩

/-- C9, as stated, fails on the request document
`{"observed": {"resources": {"db": {"resource": 5}, "x": "s"}}}`: the entry
`db`, under a key that is not reserved, holds a number at `resource`, and
`extractRequestAsYaml` fails with "cannot get observed resources from
request", not with "cannot delete managedFields from observed resources". -/
theorem extractRequestAsYaml_non_map_counterexample :
    getValue exampleUntyped pathObservedResources = .ok (.obj exampleUntypedResources) ∧
    mapGet "db" exampleUntypedResources = some (.obj [("resource", .num 5)]) ∧
    "db" ≠ composedNameProviderConfig ∧ "db" ≠ composedNameOutputConfigMap ∧
    getValue [("resource", .num 5)] ["resource"] = .ok (.num 5) ∧
    (Value.num 5).isMap = false ∧
    extractRequestAsYaml (fun _ => some "snapshot") exampleUntyped =
      ("", some errGetObserved) ∧
    extractRequestAsYaml (fun _ => some "snapshot") exampleUntyped ≠
      ("", some errDeleteObserved) :=
  ⟨rfl, rfl, by decide, by decide, rfl, rfl, rfl, by
    intro h
    have h' : extractRequestAsYaml (fun _ => some "snapshot") exampleUntyped =
        ("", some errGetObserved) := rfl
    rw [h'] at h
    have hne : errGetObserved ≠ errDeleteObserved := by decide
    exact hne (by simpa using h)⟩

/-! ## The sanitiser: documents without observed resources -/

theorem getValueFromInterface_single_eq {a b : Obj} {k : String}
    (h : getValueFromInterface (.obj a) [.field k] =
      getValueFromInterface (.obj b) [.field k]) : mapGet k a = mapGet k b := by
  simp only [getValueFromInterface_obj_field] at h
  cases ha : mapGet k a <;> cases hb : mapGet k b <;>
    simp [ha, hb, getValueFromInterface] at h ⊢
  exact h

/-- After the final delete `observed` is still a map, and its keys other than
`composite` are bound as before the delete. -/
theorem deletedAt_observed {m₁ out x : Obj}
    (hd : DeletedAt (fields pathCompositeManagedFields) (.obj m₁) (.obj out))
    (hx : mapGet "observed" m₁ = some (.obj x)) :
    ∃ obs', mapGet "observed" out = some (.obj obs') ∧
      ∀ k, k ≠ "composite" → mapGet k obs' = mapGet k x := by
  have h₁ : getValueFromInterface (.obj m₁) [.field "observed"] = .ok (.obj x) :=
    (getValueFromInterface_single _ _ _).2 hx
  have hobs : ∃ obs', mapGet "observed" out = some (.obj obs') := by
    have hn : ¬ fields pathCompositeManagedFields <+: [.field "observed"] := by
      simp [fields, pathCompositeManagedFields, List.cons_prefix_cons]
    rcases (hd _).2 hn with heq | ⟨-, o, o', -, ho'⟩
    · rw [h₁] at heq
      exact ⟨x, (getValueFromInterface_single _ _ _).1 heq⟩
    · exact ⟨o', (getValueFromInterface_single _ _ _).1 ho'⟩
  obtain ⟨obs', hobs'⟩ := hobs
  refine ⟨obs', hobs', fun k hk => ?_⟩
  have hn : ¬ fields pathCompositeManagedFields <+: [.field "observed", .field k] := by
    simp [fields, pathCompositeManagedFields, List.cons_prefix_cons]
  have hread : ∀ (m o : Obj), mapGet "observed" m = some (.obj o) →
      getValueFromInterface (.obj m) [.field "observed", .field k] =
        getValueFromInterface (.obj o) [.field k] := by
    intro m o hm
    rw [getValueFromInterface_obj_field, hm]
  rcases (hd _).2 hn with heq | ⟨hpre, -⟩
  · rw [hread _ _ hobs', hread _ _ hx] at heq
    exact getValueFromInterface_single_eq heq
  · simp [fields, pathCompositeManagedFields, List.cons_prefix_cons, hk] at hpre

/-- C7, as the code has it: for a request document that has no `observed` key,
or whose `observed` is a map without the key `resources`, the sanitising part
of `extractRequestAsYaml` can only fail in its last step (the delete on the
observed composite resource); when it succeeds, `observed` of the sanitised
document is a map in which `resources` is bound to null, and every key of
`observed` other than `resources` and `composite` is bound as in the input
(unbound when the input has no `observed`). -/
theorem sanitize_without_resources (doc obs : Obj)
    (habs : (mapGet "observed" doc = none ∧ obs = []) ∨
      (mapGet "observed" doc = some (.obj obs) ∧ mapGet "resources" obs = none)) :
    (∀ m, sanitize doc = .error m → m = errDeleteComposite) ∧
    (∀ out, sanitize doc = .ok out →
      ∃ obs', mapGet "observed" out = some (.obj obs') ∧
        mapGet "resources" obs' = some .null ∧
        ∀ k, k ≠ "resources" → k ≠ "composite" → mapGet k obs' = mapGet k obs) := by
  have hnf : getValueInto doc pathObservedResources = .error .notFound := by
    rcases habs with ⟨hd, -⟩ | ⟨hd, hr⟩
    · simp [getValueInto, getValue, pathObservedResources, getValueFromInterface_obj_field, hd]
    · simp [getValueInto, getValue, pathObservedResources, getValueFromInterface_obj_field, hd,
        hr]
  have hors : ∀ ors, (getValueInto doc pathObservedResources = .ok ors ∨
      (getValueInto doc pathObservedResources = .error .notFound ∧ ors = none)) →
      ors = none := by
    rintro ors (h | ⟨-, h⟩)
    · rw [hnf] at h
      cases h
    · exact h
  have hset : ∀ v, ∃ m₁, setValue doc pathObservedResources v = .ok m₁ := by
    intro v
    rcases habs with ⟨hd, -⟩ | ⟨hd, -⟩
    · simp [setValue, setValueLoop, pathObservedResources, prepareField, hd,
        mapGet_mapSet_self]
    · simp [setValue, setValueLoop, pathObservedResources, prepareField, hd]
  constructor
  · intro m hm
    rcases sanitize_error hm with ⟨-, hread⟩ | ⟨-, ors, hread, hclean⟩ | ⟨-, ors', hs⟩ | ⟨h, -⟩
    · rw [hnf] at hread
      cases hread
    · cases hors ors hread
      cases hclean
    · obtain ⟨m₁, hm₁⟩ := hset (orsToJSON ors')
      rw [hm₁] at hs
      rcases hs with hs | hs <;> cases hs
    · exact h
  · intro out hout
    obtain ⟨ors, ors', m₁, hread, hclean, hset', hdel⟩ := sanitize_ok hout
    cases hors ors hread
    simp only [cleanOrs, Except.ok.injEq] at hclean
    subst hclean
    obtain ⟨obs₁, hobs₁, hm₁, -⟩ := setValue_two hset'
    have hobs : obs₁ = obs := by
      rcases habs with ⟨hd, rfl⟩ | ⟨hd, -⟩
      · rcases hobs₁ with h | ⟨-, h⟩
        · rw [hd] at h
          cases h
        · exact h
      · rcases hobs₁ with h | ⟨h, -⟩
        · rw [hd] at h
          cases h
          rfl
        · rw [hd] at h
          cases h
    subst hobs
    obtain ⟨obs', hobs', hkeys⟩ :=
      deletedAt_observed (deleteLoop_deletedAt _ _ _ _ _ hdel) hm₁
    refine ⟨obs', hobs', ?_, fun k hk hc => ?_⟩
    · rw [hkeys "resources" (by decide), mapGet_mapSet_self]
      rfl
    · rw [hkeys k hc, mapGet_mapSet_ne hk]

theorem sanitize_without_resources_witness :
    mapGet "observed" exampleComposite = some (.obj [("composite", .obj [("resource",
      .obj [("metadata", .obj [("managedFields", .arr [.str "z"]), ("name", .str "sample")])])])])
    ∧ (∀ m, sanitize exampleComposite = .error m → m = errDeleteComposite) ∧
    (∀ out, sanitize exampleComposite = .ok out →
      ∃ obs', mapGet "observed" out = some (.obj obs') ∧
        mapGet "resources" obs' = some .null ∧
        ∀ k, k ≠ "resources" → k ≠ "composite" →
          mapGet k obs' = mapGet k [("composite", Value.obj [("resource",
            .obj [("metadata",
              .obj [("managedFields", .arr [.str "z"]), ("name", .str "sample")])])])]) :=
  ⟨rfl, sanitize_without_resources exampleComposite _ (Or.inr ⟨rfl, rfl⟩)⟩

/-- C7, as stated, fails on the empty request document: it has no value at
`observed.resources`, and its sanitised document binds `observed.resources`
to null. -/
theorem sanitize_without_resources_counterexample :
    getValue [] pathObservedResources = .error .notFound ∧
    sanitize [] = .ok [("observed", .obj [("resources", .null)])] ∧
    getValue [("observed", .obj [("resources", .null)])] pathObservedResources = .ok .null :=
  ⟨rfl, rfl, rfl⟩

/-! ## The sanitiser: what it adds -/

theorem getValueFromInterface_append (v : Value) (p q : List Segment) :
    getValueFromInterface v (p ++ q) =
      match getValueFromInterface v p with
      | .error e => .error e
      | .ok x => getValueFromInterface x q := by
  induction p generalizing v with
  | nil => rfl
  | cons s p' ih =>
    simp only [List.cons_append, getValueFromInterface]
    cases getSegment v s with
    | error e => rfl
    | ok x => exact ih x

/-- A value read after a delete was there before the delete, and was the same
unless it is a map. -/
theorem deletedAt_read {path : List Segment} {a b : Value} (hd : DeletedAt path a b)
    {p : List Segment} {v : Value} (hv : getValueFromInterface b p = .ok v) :
    ∃ v₁, getValueFromInterface a p = .ok v₁ ∧ (v.isMap = false → v₁ = v) := by
  by_cases hpre : path <+: p
  · rw [(hd p).1 hpre] at hv
    cases hv
  · rcases (hd p).2 hpre with heq | ⟨-, o, o', ho, ho'⟩
    · rw [heq] at hv
      exact ⟨v, hv, fun _ => rfl⟩
    · rw [hv] at ho'
      cases ho'
      exact ⟨_, ho, fun hmap => by simp [Value.isMap] at hmap⟩

theorem unmarshalOrs_ok_none {val : Value} (h : unmarshalOrs val = .ok none) :
    val = .null := by
  cases val <;> simp only [unmarshalOrs] at h <;> try cases h
  · rfl
  · split at h <;> cases h

theorem unmarshalOrs_ok_some {val : Value} {es : List (String × Entry)}
    (h : unmarshalOrs val = .ok (some es)) :
    ∃ res, val = .obj res ∧ unmarshalEntries res = .ok es := by
  cases val <;> simp only [unmarshalOrs] at h <;> try cases h
  rename_i res
  split at h
  · cases h
  · rename_i es' hes'
    cases h
    exact ⟨res, rfl, hes'⟩

theorem unmarshalOrs_error {val : Value} {e : FieldErr} (h : unmarshalOrs val = .error e) :
    e = .other := by
  cases val <;> simp only [unmarshalOrs] at h <;>
    first
      | (cases h; done)
      | (cases h; rfl)
      | skip
  split at h
  · rename_i e' he'
    cases h
    exact unmarshalEntries_error he'
  · cases h

/-- What the typed copy says about the document: nil for a missing value or a
null, the elements of the map otherwise. -/
theorem getValueInto_cases {doc : Obj} {ors : Option (List (String × Entry))}
    (h : getValueInto doc pathObservedResources = .ok ors ∨
      (getValueInto doc pathObservedResources = .error .notFound ∧ ors = none)) :
    (ors = none ∧ getValue doc pathObservedResources = .error .notFound) ∨
    (ors = none ∧ getValue doc pathObservedResources = .ok .null) ∨
    (∃ es res, ors = some es ∧ getValue doc pathObservedResources = .ok (.obj res) ∧
      unmarshalEntries res = .ok es) := by
  unfold getValueInto at h
  cases hg : getValue doc pathObservedResources with
  | error e =>
    rw [hg] at h
    rcases h with h | ⟨h, hors⟩
    · cases h
    · cases h
      exact Or.inl ⟨hors, rfl⟩
  | ok val =>
    rw [hg] at h
    simp only at h
    rcases h with h | ⟨h, -⟩
    · cases ors with
      | none =>
        rw [unmarshalOrs_ok_none h]
        exact Or.inr (Or.inl ⟨rfl, rfl⟩)
      | some es =>
        obtain ⟨res, rfl, hes⟩ := unmarshalOrs_ok_some h
        exact Or.inr (Or.inr ⟨es, res, rfl, rfl, hes⟩)
    · cases unmarshalOrs_error h

/-- A value read in the cleaned copy was in the input document below
`observed.resources`, unless the copy is the null written for a missing
value. -/
theorem cleanOrs_read {doc : Obj} {ors ors' : Option (List (String × Entry))}
    (hread : getValueInto doc pathObservedResources = .ok ors ∨
      (getValueInto doc pathObservedResources = .error .notFound ∧ ors = none))
    (hclean : cleanOrs ors = .ok ors') {q : List Segment} {v : Value}
    (hv : getValueFromInterface (orsToJSON ors') q = .ok v) :
    (∃ v', getValueFromInterface (.obj doc)
          (.field "observed" :: .field "resources" :: q) = .ok v' ∧
        (v.isMap = false → v' = v)) ∨
    (getValue doc pathObservedResources = .error .notFound ∧ q = []) := by
  have hsplit : ∀ val, getValue doc pathObservedResources = .ok val →
      getValueFromInterface (.obj doc) (.field "observed" :: .field "resources" :: q) =
        getValueFromInterface val q := by
    intro val hval
    have := getValueFromInterface_append (.obj doc)
      [.field "observed", .field "resources"] q
    simp only [getValue, pathObservedResources, List.map_cons, List.map_nil] at hval
    rw [hval] at this
    simpa using this
  rcases getValueInto_cases hread with ⟨rfl, hnf⟩ | ⟨rfl, hnull⟩ | ⟨es, res, rfl, hres, hes⟩
  · simp only [cleanOrs, Except.ok.injEq] at hclean
    subst hclean
    cases q with
    | nil => exact Or.inr ⟨hnf, rfl⟩
    | cons s q' =>
      cases s <;> simp [orsToJSON, getValueFromInterface, getSegment] at hv
  · simp only [cleanOrs, Except.ok.injEq] at hclean
    subst hclean
    refine Or.inl ?_
    rw [hsplit _ hnull]
    exact ⟨v, hv, fun _ => rfl⟩
  · simp only [cleanOrs] at hclean
    split at hclean
    · cases hclean
    · rename_i es' hes'
      cases hclean
      refine Or.inl ?_
      rw [hsplit _ hres]
      cases q with
      | nil =>
        simp only [orsToJSON, getValueFromInterface, Except.ok.injEq] at hv
        subst hv
        exact ⟨_, rfl, fun hmap => by simp [Value.isMap] at hmap⟩
      | cons s q' =>
        cases s with
        | index i => simp [orsToJSON, getValueFromInterface_obj_index] at hv
        | field k =>
          simp only [orsToJSON, getValueFromInterface_obj_field, mapGet_map] at hv
          have hin := unmarshalEntries_get hes k
          obtain ⟨hr₁, hr₂⟩ := cleanObserved_get hes' k
          cases hr : isReserved k with
          | true => simp [hr₁ hr] at hv
          | false =>
            obtain ⟨hnone, hsome⟩ := hr₂ hr
            cases hk : mapGet k es with
            | none => simp [hnone hk] at hv
            | some e =>
              obtain ⟨e', hdel, he'⟩ := hsome e hk
              simp only [he', Option.map_some'] at hv
              rw [hk] at hin
              simp only [Option.map_some'] at hin
              rw [getValueFromInterface_obj_field, ← hin]
              exact deletedAt_read (pavedDeleteField_deletedAt hdel) hv

/-- C8, as the code has it: when the sanitising part of `extractRequestAsYaml`
succeeds, every field path that has a value in the sanitised document also
has a value in the input document, the same value unless it is a map (which
may have lost fields); the only exception is the write-back of
`observed.resources`: when the input has no value there, the sanitised
document has the paths `observed` and `observed.resources` all the same. -/
theorem sanitize_adds_only_resources (doc out : Obj) (p : List Segment) (v : Value)
    (h : sanitize doc = .ok out)
    (hv : getValueFromInterface (.obj out) p = .ok v) :
    (∃ v', getValueFromInterface (.obj doc) p = .ok v' ∧ (v.isMap = false → v' = v)) ∨
    (getValue doc pathObservedResources = .error .notFound ∧
      (p = [.field "observed"] ∨ p = [.field "observed", .field "resources"])) := by
  obtain ⟨ors, ors', m₁, hread, hclean, hset, hdel⟩ := sanitize_ok h
  obtain ⟨v₁, hv₁, hsame₁⟩ := deletedAt_read (deleteLoop_deletedAt _ _ _ _ _ hdel) hv
  have hcompose : ∀ v', (v₁.isMap = false → v' = v₁) → (v.isMap = false → v' = v) := by
    intro v' hv' hmap
    have := hsame₁ hmap
    subst this
    exact hv' hmap
  obtain ⟨obs, hobs, hm₁, hother⟩ := setValue_two hset
  cases p with
  | nil =>
    exact Or.inl ⟨_, rfl, fun hmap => by
      simp only [getValueFromInterface, Except.ok.injEq] at hv
      subst hv
      simp [Value.isMap] at hmap⟩
  | cons s p' =>
    cases s with
    | index i => simp [getValueFromInterface_obj_index] at hv
    | field k =>
      by_cases hk : k = "observed"
      · subst hk
        rw [getValueFromInterface_obj_field, hm₁] at hv₁
        simp only at hv₁
        cases p' with
        | nil =>
          simp only [getValueFromInterface, Except.ok.injEq] at hv₁
          rcases hobs with hd | ⟨hd, -⟩
          · refine Or.inl ⟨.obj obs, ?_, hcompose _ fun hmap => ?_⟩
            · exact (getValueFromInterface_single _ _ _).2 hd
            · subst hv₁
              simp [Value.isMap] at hmap
          · refine Or.inr ⟨?_, Or.inl rfl⟩
            simp [getValue, pathObservedResources, getValueFromInterface_obj_field, hd]
        | cons s₂ p'' =>
          cases s₂ with
          | index i => simp [getValueFromInterface_obj_index] at hv₁
          | field k₂ =>
            by_cases hk₂ : k₂ = "resources"
            · subst hk₂
              rw [getValueFromInterface_obj_field, mapGet_mapSet_self] at hv₁
              simp only at hv₁
              rcases cleanOrs_read hread hclean hv₁ with ⟨v', hv', hsame⟩ | ⟨hnf, hq⟩
              · exact Or.inl ⟨v', hv', hcompose _ hsame⟩
              · subst hq
                exact Or.inr ⟨hnf, Or.inr rfl⟩
            · rw [getValueFromInterface_obj_field, mapGet_mapSet_ne hk₂] at hv₁
              rcases hobs with hd | ⟨-, hnil⟩
              · refine Or.inl ⟨v₁, ?_, hcompose _ fun _ => rfl⟩
                rw [getValueFromInterface_obj_field, hd]
                simp only
                rw [getValueFromInterface_obj_field]
                exact hv₁
              · subst hnil
                simp [mapGet] at hv₁
      · refine Or.inl ⟨v₁, ?_, hcompose _ fun _ => rfl⟩
        rw [getValueFromInterface_obj_field] at hv₁ ⊢
        rw [← hother k hk]
        exact hv₁

theorem sanitize_adds_only_resources_witness :
    sanitize exampleRequest = .ok exampleSanitized ∧
    getValueFromInterface (.obj exampleSanitized)
      (fields ["observed", "resources", "db", "resource", "metadata", "name"]) =
        .ok (.str "db") ∧
    ((∃ v', getValueFromInterface (.obj exampleRequest)
          (fields ["observed", "resources", "db", "resource", "metadata", "name"]) = .ok v' ∧
        ((Value.str "db").isMap = false → v' = .str "db")) ∨
      (getValue exampleRequest pathObservedResources = .error .notFound ∧
        (fields ["observed", "resources", "db", "resource", "metadata", "name"] =
            [.field "observed"] ∨
          fields ["observed", "resources", "db", "resource", "metadata", "name"] =
            [.field "observed", .field "resources"]))) :=
  ⟨rfl, rfl,
    sanitize_adds_only_resources exampleRequest exampleSanitized
      (fields ["observed", "resources", "db", "resource", "metadata", "name"]) (.str "db")
      rfl rfl⟩

/-- C8, as stated, fails on the request document `{"observed": {}}`: the path
`observed.resources` has a value (null) in the sanitised document and none in
the input. -/
theorem sanitize_adds_only_resources_counterexample :
    sanitize [("observed", .obj [])] = .ok [("observed", .obj [("resources", .null)])] ∧
    getValueFromInterface (.obj [("observed", .obj [("resources", .null)])])
      [.field "observed", .field "resources"] = .ok .null ∧
    getValueFromInterface (.obj [("observed", .obj [])])
      [.field "observed", .field "resources"] = .error .notFound :=
  ⟨rfl, rfl, rfl⟩

/-- The sanitising part fails on a document without observed resources whose
observed composite resource is not a map. -/
theorem sanitize_fails_on_non_map_composite :
    getValue [("observed", .obj [("composite", .num 5)])] pathObservedResources =
      .error .notFound ∧
    sanitize [("observed", .obj [("composite", .num 5)])] = .error errDeleteComposite :=
  ⟨rfl, rfl⟩

/-! ## The sanitiser: the frame -/

/-- Outside the path of the final delete the sanitised document reads as the
document with `observed.resources` written back. -/
theorem deletedAt_read_outside {path : List Segment} {a b : Value} (hd : DeletedAt path a b)
    {p : List Segment} (h₁ : ¬ path <+: p) (h₂ : ¬ p <+: path) :
    getValueFromInterface b p = getValueFromInterface a p := by
  rcases (hd p).2 h₁ with heq | ⟨hpre, -⟩
  · exact heq
  · exact absurd hpre h₂

/-- C11: when the sanitising part of `extractRequestAsYaml` succeeds, every
top-level key other than `observed` (so everything under `desired`, the
desired resources stored under the reserved names included) is bound as in
the input, and every field path that lies outside `observed.resources` and
outside `observed.composite.resource.metadata.managedFields` (neither below
nor above either of them) has a value in the sanitised document iff it has
that value in the input. -/
theorem sanitize_frame (doc out : Obj) (h : sanitize doc = .ok out) :
    (∀ k, k ≠ "observed" → mapGet k out = mapGet k doc) ∧
    (∀ (p : List Segment) (v : Value),
      ¬ fields pathObservedResources <+: p → ¬ p <+: fields pathObservedResources →
      ¬ fields pathCompositeManagedFields <+: p →
      ¬ p <+: fields pathCompositeManagedFields →
      (getValueFromInterface (.obj out) p = .ok v ↔
        getValueFromInterface (.obj doc) p = .ok v)) := by
  obtain ⟨ors, ors', m₁, -, -, hset, hdel⟩ := sanitize_ok h
  have hd := deleteLoop_deletedAt _ _ _ _ _ hdel
  obtain ⟨obs, hobs, hm₁, hother⟩ := setValue_two hset
  constructor
  · intro k hk
    rw [← hother k hk]
    apply getValueFromInterface_single_eq
    apply deletedAt_read_outside hd
    · simp [fields, List.cons_prefix_cons]
    · simp [fields, List.cons_prefix_cons, hk]
  · intro p v hr₁ hr₂ hc₁ hc₂
    rw [deletedAt_read_outside hd hc₁ hc₂]
    cases p with
    | nil => exact absurd List.nil_prefix hr₂
    | cons s p' =>
      cases s with
      | index i => simp [getValueFromInterface_obj_index]
      | field k =>
        by_cases hk : k = "observed"
        · subst hk
          cases p' with
          | nil =>
            exact absurd (by simp [fields, pathObservedResources, List.cons_prefix_cons]) hr₂
          | cons s₂ p'' =>
            rw [getValueFromInterface_obj_field, hm₁, getValueFromInterface_obj_field]
            cases s₂ with
            | index i =>
              rcases hobs with hd' | ⟨hd', -⟩
              · simp [hd', getValueFromInterface_obj_index]
              · simp [hd', getValueFromInterface_obj_index]
            | field k₂ =>
              have hk₂ : k₂ ≠ "resources" := by
                rintro rfl
                exact hr₁ (by simp [fields, pathObservedResources, List.cons_prefix_cons])
              rcases hobs with hd' | ⟨hd', rfl⟩
              · simp [hd', getValueFromInterface_obj_field, mapGet_mapSet_ne hk₂]
              · have hnone : mapGet k₂ (mapSet "resources" (orsToJSON ors') []) = none := by
                  rw [mapGet_mapSet_ne hk₂]
                  rfl
                simp [hd', getValueFromInterface_obj_field, hnone]
        · rw [getValueFromInterface_obj_field, getValueFromInterface_obj_field, hother k hk]

theorem sanitize_frame_witness :
    sanitize exampleFramed = .ok exampleFramedSanitized ∧
    (∀ k, k ≠ "observed" → mapGet k exampleFramedSanitized = mapGet k exampleFramed) ∧
    (∀ (p : List Segment) (v : Value),
      ¬ fields pathObservedResources <+: p → ¬ p <+: fields pathObservedResources →
      ¬ fields pathCompositeManagedFields <+: p →
      ¬ p <+: fields pathCompositeManagedFields →
      (getValueFromInterface (.obj exampleFramedSanitized) p = .ok v ↔
        getValueFromInterface (.obj exampleFramed) p = .ok v)) :=
  ⟨rfl, sanitize_frame exampleFramed exampleFramedSanitized rfl⟩

/-! ## The sanitiser: idempotence -/

theorem mapDelete_mapDelete {α : Type} (k : String) (m : List (String × α)) :
    mapDelete k (mapDelete k m) = mapDelete k m :=
  mapDelete_of_mapGet_none (mapGet_mapDelete_self k m)

theorem mapSet_mapSet {α : Type} (k : String) (v w : α) (m : List (String × α)) :
    mapSet k v (mapSet k w m) = mapSet k v m := by
  induction m with
  | nil => simp [mapSet]
  | cons kv rest ih =>
    obtain ⟨k₀, v₀⟩ := kv
    by_cases h₀ : k₀ = k
    · simp [mapSet, h₀]
    · simp [mapSet, h₀, ih]

/-- Deleting a field that has been deleted changes nothing. -/
theorem deleteLoop_idem (rest : List String) :
    ∀ (v v' : Value) (cur nxt : String), deleteLoop v cur nxt rest = .ok v' →
      deleteLoop v' cur nxt rest = .ok v' := by
  induction rest with
  | nil =>
    intro v v' cur nxt h
    obtain ⟨object, o', rfl, rfl⟩ := deleteLoop_obj h
    simp only [deleteLoop] at h
    split at h
    · rename_i hc
      cases h
      simp [deleteLoop, hc]
    · rename_i child hc
      split at h
      · cases h
      · rename_i o ho
        cases h
        cases child <;> simp only [deleteField] at ho <;> cases ho
        simp [deleteLoop, mapGet_mapSet_self, deleteField, mapDelete_mapDelete, mapSet_mapSet]
  | cons nn rest' ih =>
    intro v v' cur nxt h
    obtain ⟨object, o', rfl, rfl⟩ := deleteLoop_obj h
    simp only [deleteLoop] at h
    split at h
    · rename_i hc
      cases h
      simp [deleteLoop, hc]
    · rename_i child hc
      split at h
      · cases h
      · rename_i c hcl
        cases h
        simp [deleteLoop, mapGet_mapSet_self, ih _ _ _ _ hcl, mapSet_mapSet]

theorem pavedDeleteField_idem {p p' : Entry} {cur nxt : String} {rest : List String}
    (h : pavedDeleteField p (cur :: nxt :: rest) = .ok p') :
    pavedDeleteField p' (cur :: nxt :: rest) = .ok p' := by
  cases p with
  | none =>
    simp only [pavedDeleteField, Except.ok.injEq] at h
    subst h
    rfl
  | some object =>
    obtain ⟨o', rfl, ho⟩ := pavedDeleteField_some h
    simp [pavedDeleteField, deleteLoop_idem _ _ _ _ _ ho]

theorem unmarshalEntries_entryToJSON (es : List (String × Entry)) :
    unmarshalEntries (es.map fun kv => (kv.1, entryToJSON kv.2)) = .ok es := by
  induction es with
  | nil => rfl
  | cons kv rest ih =>
    obtain ⟨k, e⟩ := kv
    have he : unmarshalEntry (entryToJSON e) = .ok e := by
      cases e <;> rfl
    simp only [List.map_cons, unmarshalEntries, he, ih]

theorem unmarshalOrs_orsToJSON (ors : Option (List (String × Entry))) :
    unmarshalOrs (orsToJSON ors) = .ok ors := by
  cases ors with
  | none => rfl
  | some es => simp [orsToJSON, unmarshalOrs, unmarshalEntries_entryToJSON]

/-- Cleaning a cleaned copy changes nothing. -/
theorem cleanObserved_idem {es es' : List (String × Entry)}
    (h : cleanObserved es = .ok es') : cleanObserved es' = .ok es' := by
  induction es generalizing es' with
  | nil =>
    simp only [cleanObserved, Except.ok.injEq] at h
    subst h
    rfl
  | cons kv rest ih =>
    obtain ⟨k₀, e₀⟩ := kv
    simp only [cleanObserved] at h
    split at h
    · cases h
    · rename_i hnf
      exact absurd (pavedDeleteField_error hnf) (by simp)
    · rename_i e₁ he₁
      split at h
      · cases h
      · rename_i es₁ hes₁
        cases h
        by_cases hr : isReserved k₀ = true
        · simp only [hr, if_true]
          exact ih hes₁
        · simp only [hr, if_false] at he₁ ⊢
          have hidem : pavedDeleteField e₁ pathManagedFields = .ok e₁ :=
            pavedDeleteField_idem he₁
          simp [cleanObserved, hr, hidem, ih hes₁]

theorem cleanOrs_idem {ors ors' : Option (List (String × Entry))}
    (h : cleanOrs ors = .ok ors') : cleanOrs ors' = .ok ors' := by
  cases ors with
  | none =>
    simp only [cleanOrs, Except.ok.injEq] at h
    subst h
    rfl
  | some es =>
    simp only [cleanOrs] at h
    split at h
    · cases h
    · rename_i es' hes'
      cases h
      simp [cleanOrs, cleanObserved_idem hes']

/-- C12: sanitising is idempotent: when the sanitising part of
`extractRequestAsYaml` succeeds on a request document, it succeeds on the
sanitised document too and returns it unchanged. -/
theorem sanitize_idempotent (doc out : Obj) (h : sanitize doc = .ok out) :
    sanitize out = .ok out := by
  obtain ⟨ors, ors', hread, hclean, hq⟩ := sanitize_read_resources h
  obtain ⟨ors₀, ors₀', m₁, -, -, -, hdel⟩ := sanitize_ok h
  have hidem := deleteLoop_idem _ _ _ _ _ hdel
  have hres := hq []
  rw [getValueFromInterface_obj_field] at hres
  cases hobs : mapGet "observed" out with
  | none => simp [hobs, getValueFromInterface] at hres
  | some x =>
    rw [hobs] at hres
    simp only [getValueFromInterface] at hres
    cases x with
    | obj X =>
      have hX : mapGet "resources" X = some (orsToJSON ors') := by
        apply (getValueFromInterface_single _ _ _).1
        simpa [getValueFromInterface] using hres
      have hg : getValue out pathObservedResources = .ok (orsToJSON ors') := hq []
      have hinto : getValueInto out pathObservedResources = .ok ors' := by
        simp [getValueInto, hg, unmarshalOrs_orsToJSON]
      have hset : setValue out pathObservedResources (orsToJSON ors') = .ok out := by
        simp [setValue, setValueLoop, pathObservedResources, prepareField, hobs,
          mapSet_of_mapGet hX, mapSet_of_mapGet hobs]
      simp [sanitize, hinto, cleanOrs_idem hclean, hset, pavedDeleteField,
        pathCompositeManagedFields, hidem]
    | null => simp [getValueFromInterface, getSegment] at hres
    | bool b => simp [getValueFromInterface, getSegment] at hres
    | num n => simp [getValueFromInterface, getSegment] at hres
    | str s => simp [getValueFromInterface, getSegment] at hres
    | arr xs => simp [getValueFromInterface, getSegment] at hres

theorem sanitize_idempotent_witness :
    sanitize exampleRequest = .ok exampleSanitized ∧
    sanitize exampleSanitized = .ok exampleSanitized :=
  ⟨rfl, sanitize_idempotent exampleRequest exampleSanitized rfl⟩

/-! ## The sanitiser: entries under the reserved names -/

/-- The sanitising part on a document whose `observed.resources` is the map
`res`, in terms of the cleaned entries of `res`. -/
theorem sanitize_withObservedResources (base obs res : Obj) :
    sanitize (withObservedResources base obs res) =
      match cleanedEntries res with
      | .error m => .error m
      | .ok es' =>
        match pavedDeleteField
            (some (mapSet "observed"
              (.obj (mapSet "resources" (orsToJSON (some es')) obs)) base))
            pathCompositeManagedFields with
        | .error .other => .error errDeleteComposite
        | .error .notFound =>
          .ok (mapSet "observed" (.obj (mapSet "resources" (orsToJSON (some es')) obs)) base)
        | .ok none =>
          .ok (mapSet "observed" (.obj (mapSet "resources" (orsToJSON (some es')) obs)) base)
        | .ok (some m₂) => .ok m₂ := by
  have hg : getValue (withObservedResources base obs res) pathObservedResources =
      .ok (.obj res) := by
    simp [getValue, pathObservedResources, withObservedResources, getValueFromInterface,
      getSegment, mapGet_mapSet_self]
  have hset : ∀ v, setValue (withObservedResources base obs res) pathObservedResources v =
      .ok (mapSet "observed" (.obj (mapSet "resources" v obs)) base) := by
    intro v
    simp [setValue, setValueLoop, pathObservedResources, withObservedResources, prepareField,
      mapGet_mapSet_self, mapSet_mapSet]
  unfold cleanedEntries
  cases hes : unmarshalEntries res with
  | error e =>
    have he := unmarshalEntries_error hes
    subst he
    simp [sanitize, getValueInto, hg, unmarshalOrs, hes]
  | ok es =>
    cases hclean : cleanObserved es with
    | error m => simp [sanitize, getValueInto, hg, unmarshalOrs, hes, cleanOrs, hclean]
    | ok es' => simp [sanitize, getValueInto, hg, unmarshalOrs, hes, cleanOrs, hclean, hset]

/-- The cleaning loop does not look at the elements under the reserved names. -/
theorem cleanObserved_filter (es : List (String × Entry)) :
    cleanObserved es = cleanObserved (es.filter fun kv => !isReserved kv.1) := by
  induction es with
  | nil => rfl
  | cons kv rest ih =>
    obtain ⟨k₀, e₀⟩ := kv
    cases hr : isReserved k₀ with
    | true =>
      have hnil : pavedDeleteField none pathManagedFields = .ok none := rfl
      simp only [cleanObserved, hr, if_true, hnil, List.filter_cons, Bool.not_true,
        Bool.false_eq_true, if_false, ← ih]
      cases cleanObserved rest <;> rfl
    | false =>
      simp only [cleanObserved, hr, Bool.false_eq_true, if_false, List.filter_cons,
        Bool.not_false, if_true, ← ih]

/-- The typed read of a map fails or succeeds as the typed read of its
elements under the keys that are not reserved, the elements under the
reserved names being maps. -/
theorem unmarshalEntries_filter {res : Obj}
    (hmap : ∀ kv ∈ res, isReserved kv.1 = true → kv.2.isMap = true) :
    match unmarshalEntries res with
    | .error _ => ∃ e, unmarshalEntries (res.filter fun kv => !isReserved kv.1) = .error e
    | .ok es =>
      unmarshalEntries (res.filter fun kv => !isReserved kv.1) =
        .ok (es.filter fun kv => !isReserved kv.1) := by
  induction res with
  | nil => simp [unmarshalEntries]
  | cons kv rest ih =>
    obtain ⟨k₀, v₀⟩ := kv
    have ih' := ih fun kv hkv => hmap kv (List.mem_cons_of_mem _ hkv)
    cases hr : isReserved k₀ with
    | true =>
      have hv := hmap (k₀, v₀) (List.mem_cons_self _ _) hr
      cases v₀ <;> simp only [Value.isMap] at hv <;> try cases hv
      rename_i o
      simp only [unmarshalEntries, unmarshalEntry, List.filter_cons, hr, Bool.not_true,
        Bool.false_eq_true, if_false]
      cases hrest : unmarshalEntries rest with
      | error e =>
        rw [hrest] at ih'
        exact ih'
      | ok es =>
        rw [hrest] at ih'
        simpa [hr] using ih'
    | false =>
      simp only [unmarshalEntries, List.filter_cons, hr, Bool.not_false, if_true]
      cases hv : unmarshalEntry v₀ with
      | error e => exact ⟨e, rfl⟩
      | ok e₀ =>
        cases hrest : unmarshalEntries rest with
        | error e =>
          rw [hrest] at ih'
          obtain ⟨e', he'⟩ := ih'
          exact ⟨e', by simp [he']⟩
        | ok es =>
          rw [hrest] at ih'
          simp [ih', hr]

theorem cleanedEntries_filter {res : Obj}
    (hmap : ∀ kv ∈ res, isReserved kv.1 = true → kv.2.isMap = true) :
    cleanedEntries res = cleanedEntries (res.filter fun kv => !isReserved kv.1) := by
  have h := unmarshalEntries_filter hmap
  unfold cleanedEntries
  cases hes : unmarshalEntries res with
  | error e =>
    rw [hes] at h
    obtain ⟨e', he'⟩ := h
    simp [he']
  | ok es =>
    rw [hes] at h
    simp only [h]
    exact cleanObserved_filter es

/-- C18: two request documents that differ only in the map-valued entries
stored under the two reserved names in `observed.resources` (present or
absent, with any content) have the same outcome in the sanitising part of
`extractRequestAsYaml`: the same failure, or the same sanitised document. -/
theorem sanitize_ignores_reserved (base obs res₁ res₂ : Obj)
    (hsame : (res₁.filter fun kv => !isReserved kv.1) =
      res₂.filter fun kv => !isReserved kv.1)
    (hmap₁ : ∀ kv ∈ res₁, isReserved kv.1 = true → kv.2.isMap = true)
    (hmap₂ : ∀ kv ∈ res₂, isReserved kv.1 = true → kv.2.isMap = true) :
    sanitize (withObservedResources base obs res₁) =
      sanitize (withObservedResources base obs res₂) := by
  rw [sanitize_withObservedResources, sanitize_withObservedResources,
    cleanedEntries_filter hmap₁, cleanedEntries_filter hmap₂, hsame]

theorem sanitize_ignores_reserved_witness :
    ((exampleResources.filter fun kv => !isReserved kv.1) =
      exampleResourcesOther.filter fun kv => !isReserved kv.1) ∧
    sanitize (withObservedResources [] [] exampleResources) =
      sanitize (withObservedResources [] [] exampleResourcesOther) :=
  ⟨rfl,
    sanitize_ignores_reserved [] [] exampleResources exampleResourcesOther rfl
      (by
        intro kv hkv hr
        simp only [exampleResources, List.mem_cons, List.mem_singleton, List.not_mem_nil,
          or_false] at hkv
        rcases hkv with rfl | rfl
        · rfl
        · exact absurd hr (by decide))
      (by
        intro kv hkv hr
        simp only [exampleResourcesOther, List.mem_cons, List.mem_singleton,
          List.not_mem_nil, or_false] at hkv
        rcases hkv with rfl | rfl
        · rfl
        · exact absurd hr (by decide))⟩

/-! ## `addDesiredTo`: the size of the map -/

theorem keys_mapSet {α : Type} (k : String) (v : α) (m : List (String × α)) :
    ((mapSet k v m).map Prod.fst).toFinset = insert k (m.map Prod.fst).toFinset := by
  induction m with
  | nil => simp [mapSet]
  | cons kv rest ih =>
    obtain ⟨k₀, v₀⟩ := kv
    by_cases h₀ : k₀ = k
    · subst h₀
      simp [mapSet]
    · simp only [mapSet, h₀, if_false, List.map_cons, List.toFinset_cons, ih]
      exact Finset.Insert.comm _ _ _

theorem mapGet_eq_none_iff {α : Type} (k : String) (m : List (String × α)) :
    mapGet k m = none ↔ k ∉ (m.map Prod.fst).toFinset := by
  induction m with
  | nil => simp [mapGet]
  | cons kv rest ih =>
    obtain ⟨k₀, v₀⟩ := kv
    by_cases h₀ : k₀ = k
    · simp [mapGet, h₀]
    · simp only [mapGet, h₀, if_false, ih, List.map_cons, List.toFinset_cons,
        Finset.mem_insert, not_or]
      exact ⟨fun h => ⟨Ne.symm h₀, h⟩, fun h => h.2⟩

/-- C14: a starting map of size N with neither reserved name has size N+2
after one `addDesiredTo` call, and still has size N+2 after a second call. -/
theorem addDesiredTo_size (existing : List (String × DesiredComposed))
    (name ns requestYaml : String)
    (hp : mapGet composedNameProviderConfig existing = none)
    (ho : mapGet composedNameOutputConfigMap existing = none) :
    mapLen (addDesiredTo existing name ns requestYaml) = mapLen existing + 2 ∧
    mapLen (addDesiredTo (addDesiredTo existing name ns requestYaml) name ns requestYaml) =
      mapLen existing + 2 := by
  have hp' := (mapGet_eq_none_iff _ _).1 hp
  have ho' := (mapGet_eq_none_iff _ _).1 ho
  have hne := reserved_names_ne
  have hkeys : ∀ m : List (String × DesiredComposed),
      ((addDesiredTo m name ns requestYaml).map Prod.fst).toFinset =
        insert composedNameOutputConfigMap
          (insert composedNameProviderConfig (m.map Prod.fst).toFinset) := by
    intro m
    unfold addDesiredTo
    rw [keys_mapSet, keys_mapSet]
  have hone : mapLen (addDesiredTo existing name ns requestYaml) = mapLen existing + 2 := by
    unfold mapLen
    rw [hkeys, Finset.card_insert_of_not_mem, Finset.card_insert_of_not_mem hp']
    simp only [Finset.mem_insert, not_or]
    exact ⟨Ne.symm hne, ho'⟩
  refine ⟨hone, ?_⟩
  rw [← hone]
  unfold mapLen
  rw [hkeys, hkeys]
  simp

theorem addDesiredTo_size_witness :
    mapGet composedNameProviderConfig [("db", desiredProviderConfig)] = none ∧
    mapGet composedNameOutputConfigMap [("db", desiredProviderConfig)] = none ∧
    mapLen (addDesiredTo [("db", desiredProviderConfig)] "xdatabase.sample"
        "crossplane-system" "observed: {}") =
      mapLen [("db", desiredProviderConfig)] + 2 ∧
    mapLen (addDesiredTo (addDesiredTo [("db", desiredProviderConfig)] "xdatabase.sample"
        "crossplane-system" "observed: {}") "xdatabase.sample" "crossplane-system"
        "observed: {}") =
      mapLen [("db", desiredProviderConfig)] + 2 :=
  ⟨rfl, rfl,
    addDesiredTo_size [("db", desiredProviderConfig)] "xdatabase.sample" "crossplane-system"
      "observed: {}" rfl rfl⟩

/-! ## `RunFunction` -/

/-- C13: when input decoding, `extractRequestAsYaml`, reading the observed
composite resource or reading the desired composed resources fails,
`RunFunction` never reaches `addDesiredTo` (lines 49-79 yield no map, and the
response does not depend on what setting the desired resources would do): the
response is fatal and carries the desired state of the request. -/
theorem RunFunction_fatal_keeps_desired {σ : Type} (marshal : Obj → Option String)
    (toLower : String → String)
    (setDesired : σ → List (String × DesiredComposed) → σ × Option String)
    (req : RunFunctionRequest σ)
    (hfail : (∃ e, req.input = .error e) ∨
      (∃ e, (extractRequest marshal req.document).2 = some e) ∨
      (∃ e, req.observedComposite = .error e) ∨
      (∃ e, req.desiredComposed = .error e)) :
    (∃ msg, composeDesired marshal toLower req = .error msg ∧
      (RunFunction marshal toLower setDesired req).Results = [(Severity.Fatal, msg)]) ∧
    (RunFunction marshal toLower setDesired req).Desired = req.Desired ∧
    (∀ setDesired' : σ → List (String × DesiredComposed) → σ × Option String,
      RunFunction marshal toLower setDesired' req =
        RunFunction marshal toLower setDesired req) := by
  have herr : ∃ msg, composeDesired marshal toLower req = .error msg := by
    unfold composeDesired
    cases hin : req.input with
    | error e => exact ⟨_, rfl⟩
    | ok inp =>
      simp only
      cases hex : extractRequest marshal req.document with
      | mk yReq err =>
        cases err with
        | some e => exact ⟨_, rfl⟩
        | none =>
          simp only
          cases hxr : req.observedComposite with
          | error e => exact ⟨_, rfl⟩
          | ok xr =>
            simp only
            cases hds : req.desiredComposed with
            | error e => exact ⟨_, rfl⟩
            | ok ds =>
              rcases hfail with ⟨e, he⟩ | ⟨e, he⟩ | ⟨e, he⟩ | ⟨e, he⟩
              · rw [hin] at he
                cases he
              · rw [hex] at he
                cases he
              · rw [hxr] at he
                cases he
              · rw [hds] at he
                cases he
  obtain ⟨msg, hmsg⟩ := herr
  refine ⟨⟨msg, hmsg, ?_⟩, ?_, fun setDesired' => ?_⟩
  · simp [RunFunction, hmsg, responseFatal, responseTo]
  · simp [RunFunction, hmsg, responseFatal, responseTo]
  · simp [RunFunction, hmsg]

theorem RunFunction_fatal_keeps_desired_witness :
    (extractRequest (fun _ => some "snapshot") exampleRunFailing.document).2 =
      some errDeleteObserved ∧
    (∃ msg, composeDesired (fun _ => some "snapshot") id exampleRunFailing = .error msg ∧
      (RunFunction (fun _ => some "snapshot") id (fun _ d => (d, none))
        exampleRunFailing).Results = [(Severity.Fatal, msg)]) ∧
    (RunFunction (fun _ => some "snapshot") id (fun _ d => (d, none))
      exampleRunFailing).Desired = exampleRunFailing.Desired ∧
    (∀ setDesired' : List (String × DesiredComposed) → List (String × DesiredComposed) →
        List (String × DesiredComposed) × Option String,
      RunFunction (fun _ => some "snapshot") id setDesired' exampleRunFailing =
        RunFunction (fun _ => some "snapshot") id (fun _ d => (d, none)) exampleRunFailing) :=
  ⟨rfl,
    RunFunction_fatal_keeps_desired (fun _ => some "snapshot") id (fun _ d => (d, none))
      exampleRunFailing (Or.inr (Or.inl ⟨errDeleteObserved, rfl⟩))⟩

/-- The steps of lines 49-79 when none of them fails. -/
theorem composeDesired_ok {σ : Type} (marshal : Obj → Option String)
    (toLower : String → String) (req : RunFunctionRequest σ) {inp : Input} {yReq : String}
    {xr : Obj} {ds : List (String × DesiredComposed)}
    (hin : req.input = .ok inp)
    (hy : extractRequest marshal req.document = (yReq, none))
    (hxr : req.observedComposite = .ok xr) (hds : req.desiredComposed = .ok ds) :
    composeDesired marshal toLower req =
      .ok (addDesiredTo ds (toLower (GetKind xr ++ "." ++ GetName xr))
        (configMapNamespace inp) yReq) := by
  simp [composeDesired, hin, hy, hxr, hds]

/-- The desired state of the response once lines 49-79 have yielded the map
`desired`: what setting `desired` in the response leaves. -/
theorem RunFunction_desired {σ : Type} (marshal : Obj → Option String)
    (toLower : String → String)
    (setDesired : σ → List (String × DesiredComposed) → σ × Option String)
    (req : RunFunctionRequest σ) {desired : List (String × DesiredComposed)}
    (h : composeDesired marshal toLower req = .ok desired) :
    (RunFunction marshal toLower setDesired req).Desired =
      (setDesired req.Desired desired).1 := by
  simp only [RunFunction, h, responseTo]
  cases hset : setDesired req.Desired desired with
  | mk d err =>
    cases err <;> rfl

/-- C15: the namespace `RunFunction` passes to `addDesiredTo` is
"crossplane-system" when `configMapNamespace` of the input is empty (or
unset) and the configured one otherwise, and it is what
`metadata.namespace` of the manifest of the output config map reads. -/
theorem RunFunction_namespace {σ : Type} (marshal : Obj → Option String)
    (toLower : String → String) (req : RunFunctionRequest σ) (inp : Input) (yReq : String)
    (xr : Obj) (ds : List (String × DesiredComposed))
    (hin : req.input = .ok inp)
    (hy : extractRequest marshal req.document = (yReq, none))
    (hxr : req.observedComposite = .ok xr) (hds : req.desiredComposed = .ok ds) :
    ∃ name cmNs,
      composeDesired marshal toLower req = .ok (addDesiredTo ds name cmNs yReq) ∧
      (inp.ConfigMapNamespace = "" → cmNs = "crossplane-system") ∧
      (inp.ConfigMapNamespace ≠ "" → cmNs = inp.ConfigMapNamespace) ∧
      (∀ setDesired : σ → List (String × DesiredComposed) → σ × Option String,
        (RunFunction marshal toLower setDesired req).Desired =
          (setDesired req.Desired (addDesiredTo ds name cmNs yReq)).1) ∧
      ∃ out, mapGet composedNameOutputConfigMap (addDesiredTo ds name cmNs yReq) = some out ∧
        getValue out.Resource ["spec", "forProvider", "manifest", "metadata", "namespace"] =
          .ok (.str cmNs) := by
  have hsteps := composeDesired_ok marshal toLower req hin hy hxr hds
  refine ⟨toLower (GetKind xr ++ "." ++ GetName xr), configMapNamespace inp, hsteps, ?_, ?_,
    fun setDesired => RunFunction_desired marshal toLower setDesired req hsteps,
    desiredOutputConfigMap (toLower (GetKind xr ++ "." ++ GetName xr))
      (configMapNamespace inp) yReq, ?_, rfl⟩
  · intro h
    simp [configMapNamespace, h]
  · intro h
    simp [configMapNamespace, h]
  · unfold addDesiredTo
    rw [mapGet_mapSet_self]

theorem RunFunction_namespace_witness :
    ∃ name cmNs,
      composeDesired (fun _ => some "snapshot") id exampleRun =
        .ok (addDesiredTo [("db", desiredProviderConfig)] name cmNs "snapshot") ∧
      ("tee-system" = "" → cmNs = "crossplane-system") ∧
      ("tee-system" ≠ "" → cmNs = "tee-system") ∧
      (∀ setDesired : List (String × DesiredComposed) → List (String × DesiredComposed) →
          List (String × DesiredComposed) × Option String,
        (RunFunction (fun _ => some "snapshot") id setDesired exampleRun).Desired =
          (setDesired exampleRun.Desired
            (addDesiredTo [("db", desiredProviderConfig)] name cmNs "snapshot")).1) ∧
      ∃ out, mapGet composedNameOutputConfigMap
          (addDesiredTo [("db", desiredProviderConfig)] name cmNs "snapshot") = some out ∧
        getValue out.Resource ["spec", "forProvider", "manifest", "metadata", "namespace"] =
          .ok (.str cmNs) :=
  RunFunction_namespace (fun _ => some "snapshot") id exampleRun
    { ConfigMapNamespace := "tee-system" } "snapshot"
    [("kind", .str "XDatabase"), ("metadata", .obj [("name", .str "Sample")])]
    [("db", desiredProviderConfig)] rfl rfl rfl rfl

theorem getNestedString_of_str {obj : Obj} {path : List String} {s : String}
    (h : getValue obj path = .ok (.str s)) : getNestedString obj path = s := by
  simp [getNestedString, h]

/-- C16: for an observed composite resource with kind `K` and name `M`, the
subject identifier `RunFunction` passes to `addDesiredTo` is the lower-cased
`K ++ "." ++ M`; it is what `metadata.name` of the manifest of the output
config map reads, and it is used nowhere else in the two synthetic entries:
with any other identifier the provider config is the same and the output
config map is the same but for the value at that path. -/
theorem RunFunction_subject {σ : Type} (marshal : Obj → Option String)
    (toLower : String → String) (req : RunFunctionRequest σ) (inp : Input) (yReq : String)
    (xr : Obj) (ds : List (String × DesiredComposed)) (K M : String)
    (hin : req.input = .ok inp)
    (hy : extractRequest marshal req.document = (yReq, none))
    (hxr : req.observedComposite = .ok xr) (hds : req.desiredComposed = .ok ds)
    (hK : getValue xr ["kind"] = .ok (.str K))
    (hM : getValue xr ["metadata", "name"] = .ok (.str M)) :
    ∃ cmNs,
      composeDesired marshal toLower req =
        .ok (addDesiredTo ds (toLower (K ++ "." ++ M)) cmNs yReq) ∧
      (∀ setDesired : σ → List (String × DesiredComposed) → σ × Option String,
        (RunFunction marshal toLower setDesired req).Desired =
          (setDesired req.Desired (addDesiredTo ds (toLower (K ++ "." ++ M)) cmNs yReq)).1) ∧
      ∃ out,
        mapGet composedNameOutputConfigMap
          (addDesiredTo ds (toLower (K ++ "." ++ M)) cmNs yReq) = some out ∧
        getValue out.Resource ["spec", "forProvider", "manifest", "metadata", "name"] =
          .ok (.str (toLower (K ++ "." ++ M))) ∧
        ∀ name' : String,
          mapGet composedNameProviderConfig (addDesiredTo ds name' cmNs yReq) =
            mapGet composedNameProviderConfig
              (addDesiredTo ds (toLower (K ++ "." ++ M)) cmNs yReq) ∧
          ∃ out', mapGet composedNameOutputConfigMap (addDesiredTo ds name' cmNs yReq) =
              some out' ∧
            out'.Ready = out.Ready ∧
            setValue out.Resource ["spec", "forProvider", "manifest", "metadata", "name"]
              (.str name') = .ok out'.Resource := by
  have hsteps := composeDesired_ok marshal toLower req hin hy hxr hds
  have hk : GetKind xr = K := getNestedString_of_str hK
  have hm : GetName xr = M := getNestedString_of_str hM
  rw [hk, hm] at hsteps
  have hout : ∀ n : String, mapGet composedNameOutputConfigMap
      (addDesiredTo ds n (configMapNamespace inp) yReq) =
        some (desiredOutputConfigMap n (configMapNamespace inp) yReq) := by
    intro n
    unfold addDesiredTo
    rw [mapGet_mapSet_self]
  have hprov : ∀ n : String, mapGet composedNameProviderConfig
      (addDesiredTo ds n (configMapNamespace inp) yReq) = some desiredProviderConfig := by
    intro n
    unfold addDesiredTo
    rw [mapGet_mapSet_ne reserved_names_ne, mapGet_mapSet_self]
  refine ⟨configMapNamespace inp, hsteps,
    fun setDesired => RunFunction_desired marshal toLower setDesired req hsteps,
    desiredOutputConfigMap (toLower (K ++ "." ++ M)) (configMapNamespace inp) yReq,
    hout _, rfl, fun name' => ⟨?_, desiredOutputConfigMap name' (configMapNamespace inp) yReq,
      hout _, rfl, ?_⟩⟩
  · rw [hprov, hprov]
  · simp [setValue, setValueLoop, prepareField, mapGet, mapSet, desiredOutputConfigMap]

theorem RunFunction_subject_witness :
    ∃ cmNs,
      composeDesired (fun _ => some "snapshot") String.toLower exampleRun =
        .ok (addDesiredTo [("db", desiredProviderConfig)]
          (String.toLower ("XDatabase" ++ "." ++ "Sample")) cmNs "snapshot") ∧
      (∀ setDesired : List (String × DesiredComposed) → List (String × DesiredComposed) →
          List (String × DesiredComposed) × Option String,
        (RunFunction (fun _ => some "snapshot") String.toLower setDesired exampleRun).Desired =
          (setDesired exampleRun.Desired (addDesiredTo [("db", desiredProviderConfig)]
            (String.toLower ("XDatabase" ++ "." ++ "Sample")) cmNs "snapshot")).1) ∧
      ∃ out,
        mapGet composedNameOutputConfigMap
          (addDesiredTo [("db", desiredProviderConfig)]
            (String.toLower ("XDatabase" ++ "." ++ "Sample")) cmNs "snapshot") = some out ∧
        getValue out.Resource ["spec", "forProvider", "manifest", "metadata", "name"] =
          .ok (.str (String.toLower ("XDatabase" ++ "." ++ "Sample"))) ∧
        ∀ name' : String,
          mapGet composedNameProviderConfig
              (addDesiredTo [("db", desiredProviderConfig)] name' cmNs "snapshot") =
            mapGet composedNameProviderConfig
              (addDesiredTo [("db", desiredProviderConfig)]
                (String.toLower ("XDatabase" ++ "." ++ "Sample")) cmNs "snapshot") ∧
          ∃ out', mapGet composedNameOutputConfigMap
              (addDesiredTo [("db", desiredProviderConfig)] name' cmNs "snapshot") =
              some out' ∧
            out'.Ready = out.Ready ∧
            setValue out.Resource ["spec", "forProvider", "manifest", "metadata", "name"]
              (.str name') = .ok out'.Resource :=
  RunFunction_subject (fun _ => some "snapshot") String.toLower exampleRun
    { ConfigMapNamespace := "tee-system" } "snapshot"
    [("kind", .str "XDatabase"), ("metadata", .obj [("name", .str "Sample")])]
    [("db", desiredProviderConfig)] "XDatabase" "Sample" rfl rfl rfl rfl rfl rfl

/-! ## The serialiser: canonical text -/

theorem sortKeysList_eq_map (xs : List Value) : sortKeysList xs = xs.map sortKeys := by
  induction xs with
  | nil => simp [sortKeysList]
  | cons x xs ih => simp [sortKeysList, ih]

theorem sortKeysEntries_eq_map (kvs : List (String × Value)) :
    sortKeysEntries kvs = kvs.map fun kv => (kv.1, sortKeys kv.2) := by
  induction kvs with
  | nil => simp [sortKeysEntries]
  | cons kv rest ih =>
    obtain ⟨k, v⟩ := kv
    simp [sortKeysEntries, ih]

theorem mem_of_mapGet {α : Type} {k : String} {v : α} {m : List (String × α)}
    (h : mapGet k m = some v) : (k, v) ∈ m := by
  induction m with
  | nil => simp [mapGet] at h
  | cons kv rest ih =>
    obtain ⟨k₀, v₀⟩ := kv
    by_cases h₀ : k₀ = k
    · subst h₀
      simp only [mapGet, if_true, Option.some.injEq] at h
      subst h
      exact List.mem_cons_self _ _
    · simp only [mapGet, h₀, if_false] at h
      exact List.mem_cons_of_mem _ (ih h)

theorem mapGet_of_mem {α : Type} {k : String} {v : α} {m : List (String × α)}
    (hnd : (m.map Prod.fst).Nodup) (h : (k, v) ∈ m) : mapGet k m = some v := by
  induction m with
  | nil => cases h
  | cons kv rest ih =>
    obtain ⟨k₀, v₀⟩ := kv
    simp only [List.map_cons, List.nodup_cons] at hnd
    rcases List.mem_cons.1 h with heq | hmem
    · cases heq
      simp [mapGet]
    · have hne : k₀ ≠ k := by
        rintro rfl
        exact hnd.1 (List.mem_map_of_mem Prod.fst hmem)
      simp only [mapGet, hne, if_false]
      exact ih hnd.2 hmem

/-- Two maps that bind the same keys to values with the same canonical form
have the same bindings once their values are canonicalised, up to order. -/
theorem sortKeys_entries_perm {a b : List (String × Value)}
    (hna : (a.map Prod.fst).Nodup) (hnb : (b.map Prod.fst).Nodup)
    (hnone : ∀ k, mapGet k a = none ↔ mapGet k b = none)
    (hval : ∀ k v w, mapGet k a = some v → mapGet k b = some w → sortKeys v = sortKeys w) :
    (a.map fun kv => (kv.1, sortKeys kv.2)).Perm (b.map fun kv => (kv.1, sortKeys kv.2)) := by
  have hkeys : ∀ m : List (String × Value),
      ((m.map fun kv => (kv.1, sortKeys kv.2)).map Prod.fst) = m.map Prod.fst := by
    intro m
    simp [List.map_map, Function.comp_def]
  have hnd : ∀ m : List (String × Value), (m.map Prod.fst).Nodup →
      (m.map fun kv => (kv.1, sortKeys kv.2)).Nodup := by
    intro m hm
    apply List.Nodup.of_map Prod.fst
    rw [hkeys]
    exact hm
  rw [List.perm_ext_iff_of_nodup (hnd a hna) (hnd b hnb)]
  rintro ⟨k, x⟩
  simp only [List.mem_map, Prod.mk.injEq, Prod.exists]
  constructor
  · rintro ⟨k', v, hmem, rfl, rfl⟩
    have hv := mapGet_of_mem hna hmem
    cases hw : mapGet k' b with
    | none =>
      rw [(hnone k').2 hw] at hv
      cases hv
    | some w => exact ⟨k', w, mem_of_mapGet hw, rfl, (hval k' v w hv hw).symm⟩
  · rintro ⟨k', w, hmem, rfl, rfl⟩
    have hw := mapGet_of_mem hnb hmem
    cases hv : mapGet k' a with
    | none =>
      rw [(hnone k').1 hv] at hw
      cases hw
    | some v => exact ⟨k', v, mem_of_mapGet hv, rfl, hval k' v w hv hw⟩

/-- Sorting by key gives one list for all orders of the same bindings, each
key being bound once. -/
theorem insertionSort_eq_of_perm {l₁ l₂ : List (String × Value)}
    (hnd : (l₁.map Prod.fst).Nodup) (hp : l₁.Perm l₂) :
    List.insertionSort (fun a b : String × Value => a.1 ≤ b.1) l₁ =
      List.insertionSort (fun a b : String × Value => a.1 ≤ b.1) l₂ := by
  haveI : IsTotal (String × Value) (fun a b => a.1 ≤ b.1) := ⟨fun a b => le_total a.1 b.1⟩
  haveI : IsTrans (String × Value) (fun a b => a.1 ≤ b.1) :=
    ⟨fun a b c hab hbc => le_trans hab hbc⟩
  haveI : IsAntisymm (String × Value) (fun a b => a.1 < b.1) :=
    ⟨fun a b hab hba => absurd hab (lt_asymm hba)⟩
  have hstrict : ∀ l : List (String × Value), (l.map Prod.fst).Nodup →
      List.Sorted (fun a b : String × Value => a.1 < b.1)
        (List.insertionSort (fun a b : String × Value => a.1 ≤ b.1) l) := by
    intro l hl
    have hs := List.sorted_insertionSort (fun a b : String × Value => a.1 ≤ b.1) l
    have hperm := List.perm_insertionSort (fun a b : String × Value => a.1 ≤ b.1) l
    have hnd' : ((List.insertionSort (fun a b : String × Value => a.1 ≤ b.1) l).map
        Prod.fst).Nodup := (hperm.map Prod.fst).nodup_iff.2 hl
    have hne : List.Pairwise (fun a b : String × Value => a.1 ≠ b.1)
        (List.insertionSort (fun a b : String × Value => a.1 ≤ b.1) l) :=
      List.pairwise_map.1 hnd'
    exact (List.Pairwise.and hs hne).imp fun h => lt_of_le_of_ne h.1 h.2
  have hnd₂ : (l₂.map Prod.fst).Nodup := (hp.map Prod.fst).nodup_iff.1 hnd
  apply List.eq_of_perm_of_sorted _ (hstrict l₁ hnd) (hstrict l₂ hnd₂)
  exact ((List.perm_insertionSort _ l₁).trans hp).trans (List.perm_insertionSort _ l₂).symm

/-- Structurally equal documents have the same canonical form. -/
theorem sortKeys_eq_of_structEq {a b : Value} (h : StructEq a b) :
    sortKeys a = sortKeys b := by
  induction h with
  | null => rfl
  | bool b => rfl
  | num n => rfl
  | str s => rfl
  | arr hlen _ ih =>
    simp only [sortKeys, sortKeysList_eq_map]
    congr 1
    apply List.ext_get (by simp [hlen])
    intro i h₁ h₂
    simp only [List.get_eq_getElem, List.getElem_map]
    simp only [List.length_map] at h₁ h₂
    exact ih i h₁ h₂
  | obj hna hnb hnone _ ih =>
    simp only [sortKeys, sortKeysEntries_eq_map]
    congr 1
    apply insertionSort_eq_of_perm
    · simpa [List.map_map, Function.comp_def] using hna
    · exact sortKeys_entries_perm hna hnb hnone ih

/-- C17: serialisation is canonical: two sanitised documents that are
structurally equal (the same keys and values, in whatever order the maps hold
them) are rendered to the same text by `extractRequestAsYaml`. -/
theorem extractRequestAsYaml_canonical (emit : Value → Option String)
    (doc₁ doc₂ d₁ d₂ : Obj)
    (h₁ : sanitize doc₁ = .ok d₁) (h₂ : sanitize doc₂ = .ok d₂)
    (heq : StructEq (.obj d₁) (.obj d₂)) :
    marshalYaml emit d₁ = marshalYaml emit d₂ ∧
    extractRequestAsYaml (marshalYaml emit) doc₁ =
      extractRequestAsYaml (marshalYaml emit) doc₂ := by
  have hm : marshalYaml emit d₁ = marshalYaml emit d₂ := by
    unfold marshalYaml
    rw [sortKeys_eq_of_structEq heq]
  refine ⟨hm, ?_⟩
  simp only [extractRequestAsYaml, h₁, h₂, hm]

theorem structEq_exampleOrdered :
    StructEq (.obj exampleOrdered) (.obj exampleReordered) := by
  have hobs : StructEq (.obj [("resources", .null)]) (.obj [("resources", .null)]) := by
    refine .obj (by decide) (by decide) (fun _ => Iff.rfl) ?_
    intro k v w hv hw
    by_cases hk : "resources" = k
    · simp only [mapGet, hk, if_true, Option.some.injEq] at hv hw
      subst hv
      subst hw
      exact .null
    · simp [mapGet, hk] at hv
  refine .obj (by decide) (by decide) ?_ ?_
  · intro k
    by_cases h₁ : "observed" = k <;> by_cases h₂ : "tag" = k <;>
      simp [exampleOrdered, exampleReordered, mapGet, h₁, h₂]
  · intro k v w hv hw
    by_cases h₁ : "observed" = k
    · subst h₁
      simp only [exampleOrdered, exampleReordered, mapGet, if_true, Option.some.injEq] at hv hw
      have hw' : Value.obj [("resources", .null)] = w := by simpa using hw
      subst hv
      subst hw'
      exact hobs
    · by_cases h₂ : "tag" = k
      · subst h₂
        simp only [exampleOrdered, exampleReordered, mapGet, if_true, Option.some.injEq] at hv hw
        have hv' : Value.str "t" = v := by simpa using hv
        subst hv'
        subst hw
        exact .str "t"
      · simp [exampleOrdered, mapGet, h₁, h₂] at hv

theorem extractRequestAsYaml_canonical_witness :
    sanitize exampleOrdered = .ok exampleOrdered ∧
    sanitize exampleReordered = .ok exampleReordered ∧
    StructEq (.obj exampleOrdered) (.obj exampleReordered) ∧
    marshalYaml (fun _ => some "snapshot") exampleOrdered =
      marshalYaml (fun _ => some "snapshot") exampleReordered ∧
    extractRequestAsYaml (marshalYaml fun _ => some "snapshot") exampleOrdered =
      extractRequestAsYaml (marshalYaml fun _ => some "snapshot") exampleReordered :=
  ⟨rfl, rfl, structEq_exampleOrdered,
    extractRequestAsYaml_canonical (fun _ => some "snapshot") exampleOrdered exampleReordered
      exampleOrdered exampleReordered rfl rfl structEq_exampleOrdered⟩

end FunctionTee
